import Mathlib

/-!
Verification of the efes-ng build-orchestrator core against its specification.

The development shallowly embeds the TypeScript sources:
  * the per-item cache engine (cache manager: validation, storage, key sanitization),
  * the node runtime (content signatures, the withCache per-item envelope),
  * the pipeline scheduler (wave-parallel and dynamic-ready execution),
  * the input resolver (node-output references with glob filters),
  * the worker pool (execute / terminate).

Machine-level collaborators are embedded as executable Lean functions:
POSIX path arithmetic (segment lists), SHA-256 (full implementation over
Nat arithmetic mod 2^32), and the filesystem as an association list from
paths to file contents and mtimes.
-/

namespace Efes

/-! ## SHA-256 (model of node:crypto createHash('sha256')...digest('hex'))

Words are Nats kept below 2^32; every operation reduces mod 2^32 where the
machine would overflow. -/

namespace SHA256

def M32 : Nat := 4294967296

/-- Right-rotation of a 32-bit word. -/
def rotr (n x : Nat) : Nat := ((x >>> n) ||| (x <<< (32 - n))) % M32

/-- 32-bit bitwise complement. -/
def bnot32 (x : Nat) : Nat := 4294967295 - x % M32

def ch (x y z : Nat) : Nat := (x &&& y) ^^^ (bnot32 x &&& z)

def maj (x y z : Nat) : Nat := (x &&& y) ^^^ (x &&& z) ^^^ (y &&& z)

def bigSigma0 (x : Nat) : Nat := rotr 2 x ^^^ rotr 13 x ^^^ rotr 22 x

def bigSigma1 (x : Nat) : Nat := rotr 6 x ^^^ rotr 11 x ^^^ rotr 25 x

def smallSigma0 (x : Nat) : Nat := rotr 7 x ^^^ rotr 18 x ^^^ (x >>> 3)

def smallSigma1 (x : Nat) : Nat := rotr 17 x ^^^ rotr 19 x ^^^ (x >>> 10)

/-- The 64 round constants (fractional parts of cube roots of the first 64
primes, as 32-bit values written in decimal). -/
def K : List Nat :=
  [1116352408, 1899447441, 3049323471, 3921009573, 961987163,
   1508970993, 2453635748, 2870763221, 3624381080, 310598401,
   607225278, 1426881987, 1925078388, 2162078206, 2614888103,
   3248222580, 3835390401, 4022224774, 264347078, 604807628,
   770255983, 1249150122, 1555081692, 1996064986, 2554220882,
   2821834349, 2952996808, 3210313671, 3336571891, 3584528711,
   113926993, 338241895, 666307205, 773529912, 1294757372,
   1396182291, 1695183700, 1986661051, 2177026350, 2456956037,
   2730485921, 2820302411, 3259730800, 3345764771, 3516065817,
   3600352804, 4094571909, 275423344, 430227734, 506948616,
   659060556, 883997877, 958139571, 1322822218, 1537002063,
   1747873779, 1955562222, 2024104815, 2227730452, 2361852424,
   2428436474, 2756734187, 3204031479, 3329325298]

/-- Initial hash state (fractional parts of square roots of the first 8
primes, as 32-bit values written in decimal). -/
def H0 : List Nat :=
  [1779033703, 3144134277, 1013904242, 2773480762, 1359893119,
   2600822924, 528734635, 1541459225]

/-- UTF-8 encoding of one code point, as byte values. -/
def utf8Bytes (c : Char) : List Nat :=
  let n := c.toNat
  if n < 0x80 then [n]
  else if n < 0x800 then [0xC0 ||| (n >>> 6), 0x80 ||| (n &&& 0x3F)]
  else if n < 0x10000 then
    [0xE0 ||| (n >>> 12), 0x80 ||| ((n >>> 6) &&& 0x3F), 0x80 ||| (n &&& 0x3F)]
  else
    [0xF0 ||| (n >>> 18), 0x80 ||| ((n >>> 12) &&& 0x3F), 0x80 ||| ((n >>> 6) &&& 0x3F),
     0x80 ||| (n &&& 0x3F)]

def strBytes (s : String) : List Nat := s.data.foldr (fun c acc => utf8Bytes c ++ acc) []

/-- Big-endian bytes of a value, fixed width. -/
def beBytes : Nat → Nat → List Nat
  | 0, _ => []
  | w + 1, n => (n >>> (8 * w)) % 256 :: beBytes w n

/-- SHA-256 message padding: 0x80, zeros to 56 mod 64, 64-bit big-endian bit length. -/
def padMessage (msg : List Nat) : List Nat :=
  let len := msg.length
  let zeros := (119 - len % 64) % 64
  msg ++ 0x80 :: List.replicate zeros 0 ++ beBytes 8 (8 * len)

/-- Split a list into 64-byte blocks; the first argument is recursion fuel
(any bound on the number of blocks). -/
def blocksOfFuel : Nat → List Nat → List (List Nat)
  | 0, _ => []
  | _ + 1, [] => []
  | fuel + 1, b :: rest => (b :: rest).take 64 :: blocksOfFuel fuel ((b :: rest).drop 64)

/-- Split the padded message into 64-byte blocks. -/
def blocksOf (l : List Nat) : List (List Nat) := blocksOfFuel l.length l

/-- The 16 initial 32-bit words of one block. -/
def blockWords : List Nat → List Nat
  | b0 :: b1 :: b2 :: b3 :: rest => (((b0 * 256 + b1) * 256 + b2) * 256 + b3) :: blockWords rest
  | _ => []

/-- Message-schedule extension from 16 to 64 words; w holds the words so far, reversed. -/
def extendWords : Nat → List Nat → List Nat
  | 0, wrev => wrev.reverse
  | t + 1, wrev =>
    let get (k : Nat) : Nat := wrev.getD (k - 1) 0
    let nw := (smallSigma1 (get 2) + get 7 + smallSigma0 (get 15) + get 16) % M32
    extendWords t (nw :: wrev)

def schedule (ws : List Nat) : List Nat := extendWords 48 ws.reverse

/-- One compression round; the state is the 8-tuple (a,b,c,d,e,f,g,h) as a list. -/
def round (st : List Nat) (kw : Nat × Nat) : List Nat :=
  match st with
  | [a, b, c, d, e, f, g, h] =>
    let t1 := (h + bigSigma1 e + ch e f g + kw.1 + kw.2) % M32
    let t2 := (bigSigma0 a + maj a b c) % M32
    [(t1 + t2) % M32, a, b, c, (d + t1) % M32, e, f, g]
  | other => other

def compress (h : List Nat) (block : List Nat) : List Nat :=
  let w := schedule (blockWords block)
  let st := (K.zip w).foldl round h
  (h.zip st).map (fun p => (p.1 + p.2) % M32)

def hexDigit (n : Nat) : Char :=
  if n = 0 then '0' else if n = 1 then '1' else if n = 2 then '2' else if n = 3 then '3'
  else if n = 4 then '4' else if n = 5 then '5' else if n = 6 then '6' else if n = 7 then '7'
  else if n = 8 then '8' else if n = 9 then '9' else if n = 10 then 'a' else if n = 11 then 'b'
  else if n = 12 then 'c' else if n = 13 then 'd' else if n = 14 then 'e' else 'f'

def wordHex (n : Nat) : List Char :=
  [hexDigit ((n >>> 28) % 16), hexDigit ((n >>> 24) % 16), hexDigit ((n >>> 20) % 16),
   hexDigit ((n >>> 16) % 16), hexDigit ((n >>> 12) % 16), hexDigit ((n >>> 8) % 16),
   hexDigit ((n >>> 4) % 16), hexDigit (n % 16)]

/-- Hex digest of the SHA-256 hash of a string (UTF-8 encoded), as produced by
crypto.createHash('sha256').update(s).digest('hex'). -/
def sha256hex (s : String) : String :=
  let final := (blocksOf (padMessage (strBytes s))).foldl compress H0
  String.mk (final.foldr (fun w acc => wordHex w ++ acc) [])

end SHA256

export SHA256 (sha256hex)

/-! ## POSIX path model (node:path, posix flavour)

A path value is modelled as an absolute/relative flag plus its list of
segments (the result of splitting the textual path on '/').  The textual
form is recovered by joinSegs/printPath exactly where the TypeScript code
inspects the string (the startsWith('..') guard).  Node's path.resolve /
path.relative semantics are embedded segment-wise; path.join is embedded
as concatenation of segment lists (Node additionally normalizes the
textual form, which is irrelevant under resolution and is applied by
resolveP when descendance is judged). -/

namespace PathM

/-- A filesystem path: absolute flag plus segments. -/
structure Path where
  abs : Bool
  segs : List String
  deriving DecidableEq, Repr

/-- One step of absolute-path normalization: '' and '.' are dropped, '..' pops
the last segment (at the root it is dropped), anything else is pushed. -/
def absStep (acc : List String) (s : String) : List String :=
  if s = "" ∨ s = "." then acc
  else if s = ".." then acc.dropLast
  else acc ++ [s]

/-- Normalization of the segments of an absolute path (path.resolve's collapse). -/
def normAbsSegs (l : List String) : List String := l.foldl absStep []

/-- A segment is clean when normalization leaves it alone. -/
def cleanSeg (s : String) : Prop := s ≠ "" ∧ s ≠ "." ∧ s ≠ ".."

/-- path.resolve(cwd, p) for a process whose working directory has the given
(normalized, absolute) segments: absolute paths ignore cwd. -/
def resolveP (cwd : List String) (p : Path) : List String :=
  if p.abs then normAbsSegs p.segs else normAbsSegs (cwd ++ p.segs)

/-- Length of the longest common prefix of two segment lists. -/
def cpl : List String → List String → Nat
  | a :: as, b :: bs => if a = b then cpl as bs + 1 else 0
  | _, _ => 0

/-- path.relative(f, t): resolve both, drop the common prefix, go up with '..'
for what remains of f and down into what remains of t. -/
def relSegs (cwd : List String) (f t : Path) : List String :=
  let fr := resolveP cwd f
  let tr := resolveP cwd t
  let c := cpl fr tr
  List.replicate (fr.length - c) ".." ++ tr.drop c

/-- Array.prototype.join('/') over segments. -/
def joinSegs : List String → String
  | [] => ""
  | s :: rest => rest.foldl (fun acc x => acc ++ "/" ++ x) s

/-- The textual form of a path value. -/
def printPath (p : Path) : String := (if p.abs then "/" else "") ++ joinSegs p.segs

/-- JavaScript String.prototype.startsWith. -/
def jsStartsWith (s pre : String) : Bool := pre.data.isPrefixOf s.data

/-- path.join(base, rel) for a relative continuation, as a path value
(segment concatenation; textual normalization is deferred to resolveP). -/
def pathJoin (base : Path) (rel : List String) : Path :=
  { abs := base.abs, segs := base.segs ++ rel }

/-- b lies at or under base (after resolving both against cwd). -/
def isUnder (cwd : List String) (base b : Path) : Bool :=
  (resolveP cwd base).isPrefixOf (resolveP cwd b)

end PathM

/-! ## Old-scheme cache store (cache manager of the first cache scheme)

Embeds CacheManager.sanitizeKey, sanitizeNodeName, getCachePath, setCache and
getCache.  The on-disk store is an association list from cache-file paths to
the serialized entry text; setCache overwrites, getCache looks up. -/

namespace CacheV1

/-- Characters the sanitizers keep: [a-zA-Z0-9-_]. -/
def allowedChar (c : Char) : Bool :=
  ('a' ≤ c && c ≤ 'z') || ('A' ≤ c && c ≤ 'Z') || ('0' ≤ c && c ≤ '9') || c = '-' || c = '_'

/-- ASCII lower-casing (String.prototype.toLowerCase on the ASCII range, which is
all that survives the sanitizers). -/
def jsLower (c : Char) : Char :=
  if 'A' ≤ c && c ≤ 'Z' then Char.ofNat (c.toNat + 32) else c

/-- CacheManager.sanitizeKey: '/' and '\' become '-', '.' becomes '_', every
other character outside [a-zA-Z0-9-_] is removed, then lower-case. -/
def sanitizeKey (key : String) : String :=
  let s1 := key.data.map (fun c => if c = '/' then '-' else c)
  let s2 := s1.map (fun c => if c = '\\' then '-' else c)
  let s3 := s2.map (fun c => if c = '.' then '_' else c)
  let s4 := s3.filter allowedChar
  String.mk (s4.map jsLower)

/-- Collapse runs of '-' to a single '-' (the dash-run regex replacement);
the flag records whether the previous kept character was a dash. -/
def squeezeGo : Bool → List Char → List Char
  | _, [] => []
  | prevDash, c :: rest =>
    if c = '-' then
      if prevDash then squeezeGo true rest else '-' :: squeezeGo true rest
    else c :: squeezeGo false rest

def squeezeDashes (l : List Char) : List Char := squeezeGo false l

/-- CacheManager.sanitizeNodeName: characters outside [a-zA-Z0-9-_] become '-',
runs of '-' collapse, then lower-case. -/
def sanitizeNodeName (nodeName : String) : String :=
  let s1 := nodeName.data.map (fun c => if allowedChar c then c else '-')
  String.mk ((squeezeDashes s1).map jsLower)

/-- CacheManager.getCachePath: cacheDir/<sanitized node>/<sanitized key>.json
(path.join of slash-free components). -/
def getCachePath (cacheDir nodeName itemKey : String) : String :=
  cacheDir ++ "/" ++ sanitizeNodeName nodeName ++ "/" ++ sanitizeKey itemKey ++ ".json"

/-- The cache directory contents: cache-file path to serialized entry text. -/
def Store := List (String × String)

/-- Association-list update that overwrites an existing binding. -/
def putAssoc (s : List (String × String)) (k v : String) : List (String × String) :=
  if (s.lookup k).isSome then s.map (fun kv => if kv.1 = k then (k, v) else kv) else (k, v) :: s

/-- CacheManager.setCache: write the entry file at getCachePath (overwriting). -/
def setCache (cacheDir : String) (s : Store) (nodeName itemKey entry : String) : Store :=
  putAssoc s (getCachePath cacheDir nodeName itemKey) entry

/-- CacheManager.getCache: read the entry file at getCachePath, absence is a miss. -/
def getCache (cacheDir : String) (s : Store) (nodeName itemKey : String) : Option String :=
  s.lookup (getCachePath cacheDir nodeName itemKey)

end CacheV1

/-! ## Content signatures (PipelineNode.serializeValue / getContentSignature)

Config values are the tagged variants the serializer distinguishes: null (and
undefined), JSON primitives (strings, integers, booleans), FileRef markers,
node-output references, functions (kept by their source text), arrays and
plain objects.  JS numbers are embedded as integers, which covers every
config value the repository constructs. -/

namespace Sig

inductive Value where
  | vnull
  | str (s : String)
  | num (n : Int)
  | bool (b : Bool)
  | fileRef (path : String)
  | nodeRef (producer : String) (output : String) (glob : Option String)
  | fn (src : String)
  | arr (elems : List Value)
  | obj (fields : List (String × Value))

/-- JSON.stringify string escaping (quote, backslash, and newline-class
control characters; enough for the configs the repository builds). -/
def jsonEscape (c : Char) : String :=
  if c = '"' then "\\\"" else if c = '\\' then "\\\\"
  else if c = '\n' then "\\n" else if c = '\r' then "\\r" else if c = '\t' then "\\t"
  else String.mk [c]

def jsonStr (s : String) : String :=
  "\"" ++ s.data.foldr (fun c acc => jsonEscape c ++ acc) "" ++ "\""

/-- Render a comma-separated list (Array.prototype.join(',')). -/
def commaJoin : List String → String
  | [] => ""
  | s :: rest => rest.foldl (fun acc x => acc ++ "," ++ x) s

/-- Lexicographic codepoint comparison of strings (the string ordering the
JS sorts use, embedded executably). -/
def lexLe : List Char → List Char → Bool
  | [], _ => true
  | _ :: _, [] => false
  | a :: as, b :: bs =>
    if a.toNat < b.toNat then true
    else if b.toNat < a.toNat then false
    else lexLe as bs

def strLe (a b : String) : Bool := lexLe a.data b.data

/-- Insertion of one key-value pair into a key-sorted list (keys in a config
object are unique, so stability questions do not arise). -/
def insertPair (p : String × String) : List (String × String) → List (String × String)
  | [] => [p]
  | q :: rest => if strLe p.1 q.1 then p :: q :: rest else q :: insertPair p rest

/-- Sort serialized object fields by key ascending (the localeCompare sort of
serializeValue, embedded as codepoint order). -/
def sortPairs (l : List (String × String)) : List (String × String) :=
  l.foldr insertPair []

mutual

/-- PipelineNode.serializeValue: null becomes the literal null, FileRef and
node-output references their logical forms, functions their source text,
primitives their JSON encoding, arrays element-wise in order, objects
recursively with keys sorted ascending.  Sorting the rendered fields by key
equals sorting the fields before rendering, since object keys are unique. -/
def serializeValue : Value → String
  | .vnull => "null"
  | .str s => jsonStr s
  | .num n => toString n
  | .bool b => if b then "true" else "false"
  | .fileRef p => "FileRef(" ++ p ++ ")"
  | .nodeRef producer output glob =>
    "from(" ++ producer ++ ":" ++ output ++
      (match glob with | some g => ":" ++ g | none => "") ++ ")"
  | .fn src => src
  | .arr vs => "[" ++ commaJoin (serializeList vs) ++ "]"
  | .obj kvs =>
    "\x7b" ++
      commaJoin ((sortPairs (serializeFields kvs)).map (fun kv => kv.1 ++ ":" ++ kv.2)) ++
      "\x7d"

def serializeList : List Value → List String
  | [] => []
  | v :: rest => serializeValue v :: serializeList rest

def serializeFields : List (String × Value) → List (String × String)
  | [] => []
  | (k, v) :: rest => (k, serializeValue v) :: serializeFields rest

end

def isNullValue : Value → Bool
  | .vnull => true
  | _ => false

/-- PipelineNode.serializeForSignature: top-level null and undefined values are
dropped; everything else becomes key:value. -/
def serializeForSignature (key : String) (v : Value) : Option String :=
  if isNullValue v then none else some (key ++ ":" ++ serializeValue v)

/-- Insertion sort of strings ascending (the JS default sort on the parts). -/
def insertStr (s : String) : List String → List String
  | [] => [s]
  | t :: rest => if strLe s t then s :: t :: rest else t :: insertStr s rest

def sortStrings (l : List String) : List String := l.foldr insertStr []

def barJoin : List String → String
  | [] => ""
  | s :: rest => rest.foldl (fun acc x => acc ++ "|" ++ x) s

/-- The canonical string of a config map: serialize each entry, drop nulls,
sort, join with a bar. -/
def canonicalConfigString (config : List (String × Value)) : String :=
  barJoin (sortStrings (config.filterMap (fun kv => serializeForSignature kv.1 kv.2)))

/-- A node as the signature computation sees it: its constructor name and its
config map (outputConfig is excluded). -/
structure NodeSig where
  typeName : String
  config : List (String × Value)

/-- PipelineNode.getContentSignature: constructor name, a dash, and the first
8 hex characters of the SHA-256 of the canonical config string. -/
def getContentSignature (n : NodeSig) : String :=
  n.typeName ++ "-" ++ (sha256hex (canonicalConfigString n.config)).take 8

end Sig

/-! ## Filesystem model

The filesystem is an association list from path to file content and mtime;
a missing binding models both a missing file and an unreadable one (every
read error is handled identically by the embedded code). -/

structure FileInfo where
  content : String
  mtimeMs : Int
  deriving DecidableEq, Repr

def FS := List (String × FileInfo)

/-- CacheManager.computeFileHash: SHA-256 of the file bytes; none models the
throw on a missing file. -/
def fileHash (fs : FS) (p : String) : Option String :=
  (List.lookup p fs).map (fun fi => sha256hex fi.content)

/-! ## Input resolver (PipelineContext.resolveInput, node-output reference arm)

The pipeline snapshot maps a producer name to its emitted NodeOutput records;
each record maps an output name to a path list.  The filesystem glob is a
collaborator, embedded as a function from pattern to match list. -/

namespace Resolve

/-- One NodeOutput record: output name to path list. -/
def OutputRec := List (String × List String)

/-- The pipeline's nodeOutputs snapshot. -/
def Snapshot := List (String × List OutputRec)

/-- Flattened outputs of a producer under one output name: flatMap over the
records, with records lacking the name contributing nothing (the source's
filter of undefined entries); an unknown producer yields the empty list,
which the source folds into the same error branch. -/
def flatOutputs (snap : Snapshot) (producer outName : String) : List String :=
  match List.lookup producer snap with
  | none => []
  | some recs => recs.flatMap (fun r => (List.lookup outName r).getD [])

/-- PipelineContext.resolveInput on a node-output reference.  globFn is the
filesystem glob; buildDir the pipeline build directory. -/
def resolveNodeRef (globFn : String → List String) (buildDir : String) (snap : Snapshot)
    (producer outName : String) (globPat : Option String) : Except String (List String) :=
  match flatOutputs snap producer outName with
  | [] =>
    .error ("Node \"" ++ producer ++ "\" hasn't run yet or has not produced any outputs.")
  | o :: rest =>
    match globPat with
    | none => .ok (o :: rest)
    | some g =>
      let pattern := if PathM.jsStartsWith o buildDir then buildDir ++ "/*/" ++ g else g
      let matchSet := globFn pattern
      let filteredOutputs := (o :: rest).filter (fun x => matchSet.contains x)
      if filteredOutputs.isEmpty then
        .error ("No files from node \"" ++ producer ++ "\" output \"" ++ outName ++
          "\" match pattern: " ++ g ++ ".")
      else .ok filteredOutputs

end Resolve

/-! ## New-scheme cache validation

The current cache manager (imported by the pipeline core as ./cache) is not
part of the sources; the entry shape is fixed by the pipeline's
buildCacheEntry call and the on-disk format, the first four checks follow the
older cache manager's isValid loops, and the upstream-signature check is
modelled from the spec: ask the context for the producer's current outputs
under the recorded output key and glob, fingerprint them, and compare with
the stored signature. -/

namespace CacheV2

structure UpstreamSig where
  signature : String
  outputKey : String
  glob : Option String
  deriving DecidableEq, Repr

structure CacheEntry where
  itemFiles : List String
  inputHashes : List (String × String)
  inputTimestamps : List (String × Int)
  outputsByKey : List (String × List String)
  outputBaseDir : String
  configDeps : List (String × String)
  discoveredDeps : List (String × String)
  upstreamSignatures : List (String × UpstreamSig)
  cacheKey : String
  createdAtMillis : Int
  deriving DecidableEq, Repr

/-- Modelled from the spec: CacheManager.computeOutputSignature (source not in
the repository snapshot) is a stable fingerprint of an ordered path list,
embedded as the SHA-256 of the bar-joined paths. -/
def computeOutputSignature (outs : List String) : String :=
  sha256hex (Sig.barJoin outs)

/-- Modelled from the spec: CacheManager.isValid of the current cache scheme
(source not in the repository snapshot; the pipeline calls it as
cache.isValid(entry, context)).  Checks 1-4 follow the older cache manager's
isValid loops on the current entry shape; check 5 follows the spec's
upstream-signature validation. -/
def isValid (globFn : String → List String) (buildDir : String) (snap : Resolve.Snapshot)
    (fs : FS) (e : CacheEntry) : Bool :=
  -- 1. every recorded output path is readable
  (e.outputsByKey.all (fun kv => kv.2.all (fun p => (List.lookup p fs).isSome))) &&
  -- 2. two-tier input freshness: fast path on mtime, slow path on content hash
  (e.itemFiles.all (fun p =>
    match List.lookup p fs with
    | none => false
    | some fi =>
      if List.lookup p e.inputTimestamps == some fi.mtimeMs then true
      else List.lookup p e.inputHashes == some (sha256hex fi.content))) &&
  -- 3. config dependencies exist and hash-match
  (e.configDeps.all (fun kv =>
    match List.lookup kv.1 fs with
    | none => false
    | some fi => sha256hex fi.content == kv.2)) &&
  -- 4. discovered dependencies exist and hash-match
  (e.discoveredDeps.all (fun kv =>
    match List.lookup kv.1 fs with
    | none => false
    | some fi => sha256hex fi.content == kv.2)) &&
  -- 5. each upstream fingerprint still matches the producer's current outputs
  (e.upstreamSignatures.all (fun kv =>
    match Resolve.resolveNodeRef globFn buildDir snap kv.1 kv.2.outputKey kv.2.glob with
    | .ok outs => computeOutputSignature outs == kv.2.signature
    | .error _ => false))

end CacheV2

/-! ## Cache-hit output rebasing (PipelineNode.withCache, secondary-output branch)

For cached outputs whose location cannot be recalculated from current config,
the envelope takes each cached path relative to the entry's outputBaseDir,
rejects a relative path whose text starts with '..', and joins the rest onto
the current output base directory. -/

namespace Rebase

open PathM

/-- Rebase one cached path from the cached base directory onto the new one. -/
def rebaseOne (cwd : List String) (cachedBase newBase cachedPath : Path) :
    Except String Path :=
  let rel := relSegs cwd cachedBase cachedPath
  if jsStartsWith (joinSegs rel) ".." then
    .error ("Cached output path escapes base directory: " ++ printPath cachedPath ++
      " (base: " ++ printPath cachedBase ++ ")")
  else .ok (pathJoin newBase rel)

/-- The rebasing loop over the cached paths of one output key (the first
escaping path aborts the loop with the thrown error). -/
def rebasePaths (cwd : List String) (cachedBase newBase : Path) :
    List Path → Except String (List Path)
  | [] => .ok []
  | p :: ps =>
    match rebaseOne cwd cachedBase newBase p with
    | .error e => .error e
    | .ok q =>
      match rebasePaths cwd cachedBase newBase ps with
      | .error e => .error e
      | .ok qs => .ok (q :: qs)

end Rebase

/-! ## Per-item envelope result assembly (PipelineNode.withCache phases 1-3)

Phase 1 walks the items sequentially and splits them into validated cache
hits (hitRes gives the rebased outputs) and misses; phase 2 dispatches
performWork for every miss in parallel; phase 3 stores each result at its
item's original index.  The completion order of the parallel work is an
arbitrary permutation of the miss list. -/

namespace Envelope

/-- Outputs by key, as produced by performWork or recovered from cache. -/
def Outputs := List (String × List String)

structure MissRec where
  item : String
  cacheKey : String
  index : Nat
  deriving DecidableEq, Repr

structure ItemResult where
  item : String
  outputs : List (String × List String)
  cached : Bool
  deriving DecidableEq, Repr

/-- Phase 1 result array: a validated hit fills its slot, a miss leaves the
null placeholder.  hitRes i is the rebased outputs when the entry for item i
exists and validates. -/
def phase1Results (items : List String) (hitRes : Nat → Option Outputs) :
    List (Option ItemResult) :=
  (List.range items.length).map (fun i =>
    match hitRes i with
    | some o => some { item := items.getD i "", outputs := o, cached := true }
    | none => none)

/-- The cacheMisses list of phase 1, in item order. -/
def cacheMisses (items : List String) (keyOf : String → String)
    (hitRes : Nat → Option Outputs) : List MissRec :=
  (List.range items.length).filterMap (fun i =>
    match hitRes i with
    | some _ => none
    | none => some { item := items.getD i "", cacheKey := keyOf (items.getD i ""), index := i })

/-- The record phase 1 queues for the miss at index i. -/
def missOf (items : List String) (keyOf : String → String) (i : Nat) : MissRec :=
  { item := items.getD i "", cacheKey := keyOf (items.getD i ""), index := i }

/-- The result the envelope delivers for item i: the validated hit's rebased
outputs, or the freshly built outputs of performWork. -/
def expectedResult (items : List String) (hitRes : Nat → Option Outputs)
    (work : String → Outputs) (i : Nat) : ItemResult :=
  match hitRes i with
  | some o => { item := items.getD i "", outputs := o, cached := true }
  | none => { item := items.getD i "", outputs := work (items.getD i ""), cached := false }

/-- Phase 3 for one completed miss: store its result at its original index. -/
def applyCompletion (work : String → Outputs) (res : List (Option ItemResult))
    (m : MissRec) : List (Option ItemResult) :=
  res.set m.index (some { item := m.item, outputs := work m.item, cached := false })

/-- Phases 2-3 under a given completion order of the parallel work. -/
def phase3 (work : String → Outputs) (res : List (Option ItemResult))
    (order : List MissRec) : List (Option ItemResult) :=
  order.foldl (applyCompletion work) res

/-- The envelope's returned list: the filled result array with null slots
filtered out. -/
def withCacheResults (items : List String) (keyOf : String → String)
    (hitRes : Nat → Option Outputs) (work : String → Outputs)
    (order : List MissRec) : List ItemResult :=
  (phase3 work (phase1Results items hitRes) order).filterMap id

/-- The builds dispatched concurrently by phase 2: one per cache miss, all in
flight between dispatch and the join of the parallel work. -/
def inFlightBuilds (contentSignature : String) (items : List String)
    (keyOf : String → String) (hitRes : Nat → Option Outputs) :
    List (String × String) :=
  (cacheMisses items keyOf hitRes).map (fun m => (contentSignature, m.cacheKey))

end Envelope

/-! ## Wave-parallel scheduling (Pipeline.calculateWaves / executeParallel)

Nodes are numbered along the topological execution order (overallOrder), so
every dependency edge points to a strictly smaller index; the fuel arguments
of the depth computations are bounds on that index.  dependenciesOf of the
dependency-graph library returns transitive dependencies, which is what
calculateWaves folds over. -/

namespace Waves

/-- Transitive dependencies with fuel: every node reachable through deps. -/
def tdepsF (deps : Nat → List Nat) : Nat → Nat → List Nat
  | 0, _ => []
  | f + 1, i => (deps i).flatMap (fun j => j :: tdepsF deps f j)

/-- graph.dependenciesOf i (fuel i suffices once edges decrease the index). -/
def tdeps (deps : Nat → List Nat) (i : Nat) : List Nat := tdepsF deps i i

/-- Math.max over a list of depths (only applied to nonempty lists). -/
def listMax (l : List Nat) : Nat := l.foldl max 0

/-- calculateWaves.getDepth with fuel: 0 for leaves, else 1 + max depth of
the (transitive) dependencies. -/
def depthF (deps : Nat → List Nat) : Nat → Nat → Nat
  | 0, _ => 0
  | f + 1, i =>
    let ds := tdeps deps i
    if ds.isEmpty then 0 else listMax (ds.map (depthF deps f)) + 1

def depth (deps : Nat → List Nat) (i : Nat) : Nat := depthF deps i i

/-- The wave at depth d: the nodes of that depth, in execution order. -/
def waveNodes (deps : Nat → List Nat) (numNodes d : Nat) : List Nat :=
  (List.range numNodes).filter (fun n => depth deps n == d)

/-- The depths that occur, ascending (the sorted wave keys). -/
def sortedDepths (deps : Nat → List Nat) (numNodes : Nat) : List Nat :=
  (List.range (listMax ((List.range numNodes).map (depth deps)) + 1)).filter
    (fun d => !(waveNodes deps numNodes d).isEmpty)

/-- The sorted wave list executeParallel iterates. -/
def sortedWaves (deps : Nat → List Nat) (numNodes : Nat) : List (Nat × List Nat) :=
  (sortedDepths deps numNodes).map (fun d => (d, waveNodes deps numNodes d))

inductive Ev where
  | start (n : Nat)
  | fin (n : Nat)
  deriving DecidableEq, Repr

/-- The event block of one wave: all starts are issued synchronously when the
wave's promises are created, then the completions land in an arbitrary order
fo d before the awaited Promise.all returns. -/
def block (deps : Nat → List Nat) (numNodes : Nat) (fo : Nat → List Nat) (d : Nat) :
    List Ev :=
  (waveNodes deps numNodes d).map Ev.start ++ (fo d).map Ev.fin

/-- The event trace of executeParallel: the wave blocks in ascending depth
order. -/
def waveTrace (deps : Nat → List Nat) (numNodes : Nat) (fo : Nat → List Nat) : List Ev :=
  (sortedDepths deps numNodes).flatMap (block deps numNodes fo)

/-- Index of the first occurrence of an event in a trace. -/
def posOf (e : Ev) : List Ev → Nat
  | [] => 0
  | x :: rest => if x = e then 0 else posOf e rest + 1

end Waves

/-! ## Dynamic-ready scheduling (Pipeline.executeDynamic)

The scheduler state carries the pending, in-progress and completed node sets
and the captured errors, exactly as executeDynamic's closures do.  A
completion event is a node together with an optional error; the runNode
finally-block moves the node to completed either way, and only an error-free
successful completion re-runs startReadyNodes. -/

namespace Dyn

structure DState where
  pending : List Nat
  inProgress : List Nat
  completed : List Nat
  errors : List String
  deriving DecidableEq, Repr

/-- A node is ready when all its dependencies are completed. -/
def ready (depsOf : Nat → List Nat) (completed : List Nat) (n : Nat) : Bool :=
  (depsOf n).all (fun d => completed.contains d)

/-- startReadyNodes: one pass over pending that starts every ready node. -/
def startReady (depsOf : Nat → List Nat) (s : DState) : DState :=
  { s with
    pending := s.pending.filter (fun n => !ready depsOf s.completed n),
    inProgress := s.inProgress ++ s.pending.filter (ready depsOf s.completed) }

/-- The state after the initial kick-off. -/
def initState (depsOf : Nat → List Nat) (order : List Nat) : DState :=
  startReady depsOf { pending := order, inProgress := [], completed := [], errors := [] }

/-- One completion event: some e is a failed run captured as error e.  The
node leaves inProgress and joins completed (the finally block); an error is
appended; only a successful completion with no captured errors starts new
ready nodes.  Events for nodes not in progress cannot occur and are ignored. -/
def step (depsOf : Nat → List Nat) (s : DState) (ev : Nat × Option String) : DState :=
  if s.inProgress.contains ev.1 then
    let base : DState :=
      { pending := s.pending,
        inProgress := s.inProgress.erase ev.1,
        completed := s.completed ++ [ev.1],
        errors := s.errors ++ (match ev.2 with | some e => [e] | none => []) }
    match ev.2 with
    | none => if base.errors.isEmpty then startReady depsOf base else base
    | some _ => base
  else s

/-- The scheduler state after a sequence of completion events. -/
def run (depsOf : Nat → List Nat) (order : List Nat)
    (sched : List (Nat × Option String)) : DState :=
  sched.foldl (step depsOf) (initState depsOf order)

/-- The await-loop exit condition: nothing in progress and either nothing
pending or an error captured. -/
def canReturn (s : DState) : Bool :=
  s.inProgress.isEmpty && (s.pending.isEmpty || !s.errors.isEmpty)

/-- executeDynamic's outcome from the final state: re-raise the first
captured error, else return normally. -/
def dynResult (s : DState) : Except String Unit :=
  match s.errors with
  | [] => .ok ()
  | e :: _ => .error e

end Dyn

/-! ## Worker pool (WorkerPool.execute / terminate)

Jobs are identified by ids; each accepted job owns a promise whose state the
pool settles through resolve/reject.  execute dispatches to the first idle
worker or appends to the FIFO queue; terminate stops every worker and clears
the bookkeeping. -/

namespace Pool

inductive PState where
  | pending
  | resolved
  | rejected
  deriving DecidableEq, Repr

structure PoolState where
  workers : List Nat
  activeJobs : List (Nat × Nat)
  queue : List Nat
  promises : List (Nat × PState)
  deriving DecidableEq, Repr

/-- A fresh pool of the given size. -/
def mkPool (poolSize : Nat) : PoolState :=
  { workers := List.range poolSize, activeJobs := [], queue := [], promises := [] }

/-- WorkerPool.execute: create the job's promise; dispatch to the first idle
worker, else queue FIFO. -/
def execute (s : PoolState) (jobId : Nat) : PoolState :=
  let promises := s.promises ++ [(jobId, PState.pending)]
  match s.workers.find? (fun w => (List.lookup w s.activeJobs).isNone) with
  | some w => { s with activeJobs := s.activeJobs ++ [(w, jobId)], promises := promises }
  | none => { s with queue := s.queue ++ [jobId], promises := promises }

/-- WorkerPool.terminate: stop all workers, clear active-job bookkeeping and
the queue.  No promise is settled. -/
def terminate (s : PoolState) : PoolState :=
  { workers := [], activeJobs := [], queue := [], promises := s.promises }

end Pool

/-- Whether a fallible computation threw. -/
def isErr {ε α : Type} : Except ε α → Bool
  | .error _ => true
  | .ok _ => false

/-- The glob expansion set the resolver filters against: the pattern is
build-dir-anchored when the producer's first output lies under the build
directory, else the raw filter pattern. -/
def expansionSet (globFn : String → List String) (buildDir : String)
    (flat : List String) (pat : String) : List String :=
  match flat with
  | [] => globFn pat
  | o :: _ => globFn (if PathM.jsStartsWith o buildDir then buildDir ++ "/*/" ++ pat else pat)

/-! # Theorems -/

/-- Claim C10: cache-key sanitization is not injective: the distinct keys
scratch/Book.xml and scratch/book.XML (differing only in letter case) map to
the same on-disk cache path; storing under the second key overwrites the
entry stored under the first, after which a lookup under the first key
returns the entry built for the second. -/
theorem c10_sanitizeKey_collision :
    ("scratch/Book.xml" : String) ≠ "scratch/book.XML" ∧
    CacheV1.getCachePath ".efes-cache" "xslt" "scratch/Book.xml" =
      CacheV1.getCachePath ".efes-cache" "xslt" "scratch/book.XML" ∧
    CacheV1.getCache ".efes-cache"
        (CacheV1.setCache ".efes-cache" [] "xslt" "scratch/Book.xml" "entry-one")
        "xslt" "scratch/Book.xml" = some "entry-one" ∧
    CacheV1.getCache ".efes-cache"
        (CacheV1.setCache ".efes-cache"
          (CacheV1.setCache ".efes-cache" [] "xslt" "scratch/Book.xml" "entry-one")
          "xslt" "scratch/book.XML" "entry-two")
        "xslt" "scratch/Book.xml" = some "entry-two" := by
  decide

/-- Claim C9 counterexample: with a pool of one worker, job 0 occupies the
worker and job 1 is accepted and queued; terminate leaves job 1's promise
pending, not rejected. -/
theorem c9_counterexample :
    (Pool.execute (Pool.execute (Pool.mkPool 1) 0) 1).queue = [1] ∧
    List.lookup 1 (Pool.terminate (Pool.execute (Pool.execute (Pool.mkPool 1) 0) 1)).promises =
      some Pool.PState.pending ∧
    List.lookup 1 (Pool.terminate (Pool.execute (Pool.execute (Pool.mkPool 1) 0) 1)).promises ≠
      some Pool.PState.rejected := by
  decide

/-- Claim C9 (amended): terminate stops all workers and discards the active
and queued bookkeeping, but settles no promise: a job accepted by execute and
still queued keeps its pending (unsettled) promise. -/
theorem c9_terminate_drops_queue (s : Pool.PoolState) (j : Nat)
    (hq : j ∈ s.queue) (hp : List.lookup j s.promises = some Pool.PState.pending) :
    (Pool.terminate s).workers = [] ∧
    (Pool.terminate s).activeJobs = [] ∧
    (Pool.terminate s).queue = [] ∧
    List.lookup j (Pool.terminate s).promises = some Pool.PState.pending := by
  exact ⟨rfl, rfl, rfl, hp⟩

/-- Claim C9 witness: the amended theorem applied to the concrete
one-worker, one-queued-job pool. -/
theorem c9_witness :
    ((Pool.terminate (Pool.execute (Pool.execute (Pool.mkPool 1) 0) 1)).workers = [] ∧
     (Pool.terminate (Pool.execute (Pool.execute (Pool.mkPool 1) 0) 1)).activeJobs = [] ∧
     (Pool.terminate (Pool.execute (Pool.execute (Pool.mkPool 1) 0) 1)).queue = [] ∧
     List.lookup 1 (Pool.terminate (Pool.execute (Pool.execute (Pool.mkPool 1) 0) 1)).promises =
       some Pool.PState.pending) := by
  exact c9_terminate_drops_queue (Pool.execute (Pool.execute (Pool.mkPool 1) 0) 1) 1
    (by decide) (by decide)

/-- Claim C5 counterexample: two items that both miss and map to the same
cache key are dispatched as two concurrent builds of the same
(contentSignature, cacheKey) pair by phase 2 of the envelope. -/
theorem c5_counterexample :
    ¬ ((Envelope.inFlightBuilds "XsltTransformNode-00000000" ["a.xml", "b.xml"]
          (fun _ => "k") (fun _ => none)).countP
        (fun b => decide (b = ("XsltTransformNode-00000000", "k"))) ≤ 1) := by
  decide

theorem map_getD_range {α β : Type} (l : List α) (f : α → β) (d : α) :
    (List.range l.length).map (fun i => f (l.getD i d)) = l.map f := by
  induction l with
  | nil => rfl
  | cons a t ih =>
    rw [List.length_cons, List.range_succ_eq_map, List.map_cons, List.map_map]
    have h1 : ((fun i => f ((a :: t).getD i d)) ∘ Nat.succ) = (fun i => f (t.getD i d)) := by
      funext i
      simp [List.getD]
    rw [h1, ih, List.map_cons]
    rfl

theorem filterMap_sublist_map {α β : Type} {f : α → Option β} {g : α → β}
    (h : ∀ a, f a = none ∨ f a = some (g a)) (l : List α) :
    (l.filterMap f).Sublist (l.map g) := by
  induction l with
  | nil => simp
  | cons a t ih =>
    rcases h a with ha | ha
    · rw [List.map_cons, List.filterMap_cons, ha]
      exact ih.cons (g a)
    · rw [List.map_cons, List.filterMap_cons, ha]
      exact ih.cons₂ (g a)

theorem cacheMisses_keys_sublist (items : List String) (keyOf : String → String)
    (hitRes : Nat → Option Envelope.Outputs) :
    ((Envelope.cacheMisses items keyOf hitRes).map (fun m => m.cacheKey)).Sublist
      (items.map keyOf) := by
  unfold Envelope.cacheMisses
  rw [List.map_filterMap]
  have step := filterMap_sublist_map
    (f := fun i => Option.map (fun m => Envelope.MissRec.cacheKey m)
      (match hitRes i with
       | some _ => none
       | none => some { item := items.getD i "", cacheKey := keyOf (items.getD i ""), index := i }))
    (g := fun i => keyOf (items.getD i ""))
    (fun i => by rcases h : hitRes i with _ | v <;> simp [h])
    (List.range items.length)
  calc ((List.range items.length).filterMap _).Sublist
        ((List.range items.length).map (fun i => keyOf (items.getD i ""))) := step
    _ = items.map keyOf := map_getD_range items keyOf ""

theorem countP_eq_decide_le_one {α : Type} [DecidableEq α] (l : List α) (a : α)
    (h : l.Nodup) : l.countP (fun x => decide (x = a)) ≤ 1 := by
  induction l with
  | nil => simp
  | cons b t ih =>
    rw [List.countP_cons]
    rcases List.nodup_cons.mp h with ⟨hb, ht⟩
    by_cases hba : b = a
    · subst hba
      have : t.countP (fun x => decide (x = b)) = 0 := by
        rw [List.countP_eq_zero]
        intro x hx
        simp only [decide_eq_true_eq]
        intro hxb
        exact hb (hxb ▸ hx)
      simp [this]
    · simp only [hba, decide_eq_false hba]
      simpa using ih ht

/-- Claim C5 (amended): within a single envelope invocation whose items map
to pairwise-distinct cache keys, at most one build per (contentSignature,
cacheKey) pair is dispatched concurrently.  The envelope provides no per-key
mutual exclusion, so duplicate keys within one call, or two concurrently
running nodes with the same content signature, can put two builds of the
same pair in flight (the counterexample). -/
theorem c5_at_most_one_build_per_key (sig : String) (items : List String)
    (keyOf : String → String) (hitRes : Nat → Option Envelope.Outputs)
    (pair : String × String) (hnd : (items.map keyOf).Nodup) :
    (Envelope.inFlightBuilds sig items keyOf hitRes).countP
      (fun b => decide (b = pair)) ≤ 1 := by
  unfold Envelope.inFlightBuilds
  rw [List.countP_map]
  have mono : (Envelope.cacheMisses items keyOf hitRes).countP
        ((fun b => decide (b = pair)) ∘ (fun m : Envelope.MissRec => (sig, m.cacheKey))) ≤
      (Envelope.cacheMisses items keyOf hitRes).countP
        ((fun k => decide (k = pair.2)) ∘ (fun m : Envelope.MissRec => m.cacheKey)) := by
    apply List.countP_mono_left
    intro m _
    simp only [Function.comp, decide_eq_true_eq]
    intro hpq
    rw [← hpq]
  refine le_trans mono ?_
  rw [← List.countP_map]
  refine le_trans ((cacheMisses_keys_sublist items keyOf hitRes).countP_le _) ?_
  exact countP_eq_decide_le_one (items.map keyOf) pair.2 hnd

/-- Claim C5 witness: the amended theorem applied to two items with distinct
cache keys, everything a miss. -/
theorem c5_witness :
    ((["a.xml", "b.xml"].map (fun s => s)).Nodup) ∧
    (Envelope.inFlightBuilds "XsltTransformNode-00000000" ["a.xml", "b.xml"]
        (fun s => s) (fun _ => none)).countP
      (fun b => decide (b = ("XsltTransformNode-00000000", "a.xml"))) ≤ 1 :=
  ⟨by decide,
   c5_at_most_one_build_per_key "XsltTransformNode-00000000" ["a.xml", "b.xml"]
     (fun s => s) (fun _ => none) ("XsltTransformNode-00000000", "a.xml") (by decide)⟩

set_option maxRecDepth 40000 in
/-- Claim C2 counterexample: the content signature is prefixed with the node
constructor's name, so two nodes of different types whose configs serialize
to the same canonical string get different signatures. -/
theorem c2_counterexample :
    Sig.canonicalConfigString [("x", Sig.Value.str "1")] =
      Sig.canonicalConfigString [("x", Sig.Value.str "1")] ∧
    Sig.getContentSignature { typeName := "CopyFilesNode",
                              config := [("x", Sig.Value.str "1")] } ≠
      Sig.getContentSignature { typeName := "XsltTransformNode",
                                config := [("x", Sig.Value.str "1")] } := by
  exact ⟨rfl, by decide⟩

/-- Claim C2 (amended): for any two nodes of the same node type whose config
maps serialize to the same canonical string, the content signatures are
equal, and every signature is the node type name, a dash, and the first 8
hex characters of the SHA-256 of the canonical string. -/
theorem c2_signature_determinism (n1 n2 : Sig.NodeSig)
    (ht : n1.typeName = n2.typeName)
    (hc : Sig.canonicalConfigString n1.config = Sig.canonicalConfigString n2.config) :
    Sig.getContentSignature n1 = Sig.getContentSignature n2 ∧
    Sig.getContentSignature n1 =
      n1.typeName ++ "-" ++ (sha256hex (Sig.canonicalConfigString n1.config)).take 8 := by
  unfold Sig.getContentSignature
  rw [ht, hc]
  exact ⟨rfl, rfl⟩

/-- Claim C2 witness: two same-type nodes whose configs differ in entry order
but serialize to the same canonical string share a signature. -/
theorem c2_witness :
    Sig.canonicalConfigString [("a", Sig.Value.num 1), ("b", Sig.Value.bool true)] =
      Sig.canonicalConfigString [("b", Sig.Value.bool true), ("a", Sig.Value.num 1)] ∧
    Sig.getContentSignature { typeName := "CopyFilesNode",
                              config := [("a", Sig.Value.num 1), ("b", Sig.Value.bool true)] } =
      Sig.getContentSignature { typeName := "CopyFilesNode",
                                config := [("b", Sig.Value.bool true), ("a", Sig.Value.num 1)] } :=
  ⟨by decide,
   (c2_signature_determinism
     { typeName := "CopyFilesNode",
       config := [("a", Sig.Value.num 1), ("b", Sig.Value.bool true)] }
     { typeName := "CopyFilesNode",
       config := [("b", Sig.Value.bool true), ("a", Sig.Value.num 1)] }
     rfl (by decide)).1⟩

/-- Claim C8: resolving a node-output reference throws exactly when the
producer's recorded outputs under the referenced name are absent or empty, or
a glob filter is present and no recorded output path lies in its expansion
set; otherwise it returns the flattened recorded paths, restricted to the
expansion set when a filter is present, in recorded order. -/
theorem c8_resolveNodeRef_spec (globFn : String → List String) (buildDir : String)
    (snap : Resolve.Snapshot) (producer outName : String) (globPat : Option String) :
    (isErr (Resolve.resolveNodeRef globFn buildDir snap producer outName globPat) = true ↔
      (Resolve.flatOutputs snap producer outName = [] ∨
       ∃ pat, globPat = some pat ∧
         (Resolve.flatOutputs snap producer outName).filter
           (fun x => (expansionSet globFn buildDir
             (Resolve.flatOutputs snap producer outName) pat).contains x) = [])) ∧
    (∀ l, Resolve.resolveNodeRef globFn buildDir snap producer outName globPat = .ok l →
      (globPat = none → l = Resolve.flatOutputs snap producer outName) ∧
      (∀ pat, globPat = some pat →
        l = (Resolve.flatOutputs snap producer outName).filter
          (fun x => (expansionSet globFn buildDir
            (Resolve.flatOutputs snap producer outName) pat).contains x))) := by
  rcases hflat : Resolve.flatOutputs snap producer outName with _ | ⟨o, rest⟩
  · constructor
    · simp [Resolve.resolveNodeRef, hflat, isErr]
    · intro l hl
      rw [Resolve.resolveNodeRef, hflat] at hl
      exact absurd hl (by simp)
  · rcases globPat with _ | pat
    · constructor
      · simp [Resolve.resolveNodeRef, hflat, isErr]
      · intro l hl
        rw [Resolve.resolveNodeRef, hflat] at hl
        simp only [Except.ok.injEq] at hl
        subst hl
        exact ⟨fun _ => rfl, fun pat h => by cases h⟩
    · cases hF : ((o :: rest).filter (fun x =>
        (globFn (if PathM.jsStartsWith o buildDir then buildDir ++ "/*/" ++ pat
                 else pat)).contains x)).isEmpty with
      | true =>
        constructor
        · rw [Resolve.resolveNodeRef, hflat]
          simp only [hF, if_true, isErr, expansionSet]
          constructor
          · intro _
            exact Or.inr ⟨pat, rfl, List.isEmpty_iff.mp hF⟩
          · intro _
            trivial
        · intro l hl
          rw [Resolve.resolveNodeRef, hflat] at hl
          simp only [hF, if_true] at hl
          exact absurd hl (by simp)
      | false =>
        constructor
        · rw [Resolve.resolveNodeRef, hflat]
          simp only [hF, if_false, isErr, expansionSet]
          constructor
          · intro h
            cases h
          · rintro (h | ⟨p, hp, hfil⟩)
            · cases h
            · cases hp
              rw [hfil] at hF
              cases hF
        · intro l hl
          rw [Resolve.resolveNodeRef, hflat] at hl
          simp only [hF] at hl
          simp at hl
          subst hl
          constructor
          · intro h
            cases h
          · intro p hp
            cases hp
            simp [expansionSet]

theorem freshness_elem_iff (fs : FS) (ts : List (String × Int))
    (hs : List (String × String)) (p : String) :
    ((match List.lookup p fs with
      | none => false
      | some fi =>
        if List.lookup p ts == some fi.mtimeMs then true
        else List.lookup p hs == some (sha256hex fi.content)) = true) ↔
    (∃ fi, List.lookup p fs = some fi ∧
      (List.lookup p ts = some fi.mtimeMs ∨
       List.lookup p hs = some (sha256hex fi.content))) := by
  rcases hfs : List.lookup p fs with _ | fi
  · simp
  · simp only [hfs]
    constructor
    · intro h
      refine ⟨fi, rfl, ?_⟩
      by_cases hts : List.lookup p ts = some fi.mtimeMs
      · exact Or.inl hts
      · refine Or.inr ?_
        rw [if_neg (by simpa using hts)] at h
        simpa using h
    · rintro ⟨fi2, hfi2, hor⟩
      obtain rfl : fi = fi2 := by injection hfi2
      rcases hor with hts | hhs
      · rw [if_pos (by simpa using hts)]
      · by_cases hts : List.lookup p ts = some fi.mtimeMs
        · rw [if_pos (by simpa using hts)]
        · rw [if_neg (by simpa using hts)]
          simpa using hhs

theorem depHash_elem_iff (fs : FS) (kv : String × String) :
    ((match List.lookup kv.1 fs with
      | none => false
      | some fi => sha256hex fi.content == kv.2) = true) ↔
    (∃ fi, List.lookup kv.1 fs = some fi ∧ sha256hex fi.content = kv.2) := by
  rcases hfs : List.lookup kv.1 fs with _ | fi
  · simp
  · simp [hfs]

theorem upstream_elem_iff (globFn : String → List String) (buildDir : String)
    (snap : Resolve.Snapshot) (kv : String × CacheV2.UpstreamSig) :
    ((match Resolve.resolveNodeRef globFn buildDir snap kv.1 kv.2.outputKey kv.2.glob with
      | .ok outs => CacheV2.computeOutputSignature outs == kv.2.signature
      | .error _ => false) = true) ↔
    (∃ outs, Resolve.resolveNodeRef globFn buildDir snap kv.1 kv.2.outputKey kv.2.glob =
        .ok outs ∧ CacheV2.computeOutputSignature outs = kv.2.signature) := by
  rcases hres : Resolve.resolveNodeRef globFn buildDir snap kv.1 kv.2.outputKey kv.2.glob
    with e | outs
  · simp [hres]
  · simp [hres]

/-- Claim C1: new-scheme cache validation succeeds exactly when all five
checks pass: every recorded output path is readable; every item file exists
and either its mtime matches the stored timestamp or its recomputed SHA-256
matches the stored input hash (a touch-style mtime change with unchanged
content is accepted); every config dependency and every discovered dependency
exists with a matching recomputed hash; and each recorded upstream signature
equals the fingerprint of the producer's current outputs under the same
output key and glob.  Any missing file or hash or signature mismatch, or a
failing upstream resolution, makes validation return false. -/
theorem c1_isValid_iff_five_checks (globFn : String → List String) (buildDir : String)
    (snap : Resolve.Snapshot) (fs : FS) (e : CacheV2.CacheEntry) :
    CacheV2.isValid globFn buildDir snap fs e = true ↔
      ((∀ kv ∈ e.outputsByKey, ∀ p ∈ kv.2, (List.lookup p fs).isSome = true) ∧
       (∀ p ∈ e.itemFiles, ∃ fi, List.lookup p fs = some fi ∧
          (List.lookup p e.inputTimestamps = some fi.mtimeMs ∨
           List.lookup p e.inputHashes = some (sha256hex fi.content))) ∧
       (∀ kv ∈ e.configDeps, ∃ fi, List.lookup kv.1 fs = some fi ∧
          sha256hex fi.content = kv.2) ∧
       (∀ kv ∈ e.discoveredDeps, ∃ fi, List.lookup kv.1 fs = some fi ∧
          sha256hex fi.content = kv.2) ∧
       (∀ kv ∈ e.upstreamSignatures, ∃ outs,
          Resolve.resolveNodeRef globFn buildDir snap kv.1 kv.2.outputKey kv.2.glob =
            .ok outs ∧
          CacheV2.computeOutputSignature outs = kv.2.signature)) := by
  simp only [CacheV2.isValid, Bool.and_eq_true, List.all_eq_true]
  constructor
  · rintro ⟨⟨⟨⟨h1, h2⟩, h3⟩, h4⟩, h5⟩
    exact ⟨h1,
      fun p hp => (freshness_elem_iff fs e.inputTimestamps e.inputHashes p).mp (h2 p hp),
      fun kv hkv => (depHash_elem_iff fs kv).mp (h3 kv hkv),
      fun kv hkv => (depHash_elem_iff fs kv).mp (h4 kv hkv),
      fun kv hkv => (upstream_elem_iff globFn buildDir snap kv).mp (h5 kv hkv)⟩
  · rintro ⟨h1, h2, h3, h4, h5⟩
    exact ⟨⟨⟨⟨h1,
      fun p hp => (freshness_elem_iff fs e.inputTimestamps e.inputHashes p).mpr (h2 p hp)⟩,
      fun kv hkv => (depHash_elem_iff fs kv).mpr (h3 kv hkv)⟩,
      fun kv hkv => (depHash_elem_iff fs kv).mpr (h4 kv hkv)⟩,
      fun kv hkv => (upstream_elem_iff globFn buildDir snap kv).mpr (h5 kv hkv)⟩

theorem cleanSeg_foldl_absStep (l : List String) :
    ∀ acc, (∀ s ∈ acc, PathM.cleanSeg s) →
      ∀ s ∈ List.foldl PathM.absStep acc l, PathM.cleanSeg s := by
  induction l with
  | nil =>
    intro acc h s hs
    exact h s hs
  | cons a t ih =>
    intro acc hacc
    rw [List.foldl_cons]
    refine ih (PathM.absStep acc a) ?_
    intro s hs
    unfold PathM.absStep at hs
    by_cases h1 : a = "" ∨ a = "."
    · rw [if_pos h1] at hs
      exact hacc s hs
    · rw [if_neg h1] at hs
      by_cases h2 : a = ".."
      · rw [if_pos h2] at hs
        exact hacc s ((List.dropLast_sublist acc).subset hs)
      · rw [if_neg h2] at hs
        rcases List.mem_append.mp hs with h | h
        · exact hacc s h
        · push_neg at h1
          rcases List.mem_singleton.mp h with rfl
          exact ⟨h1.1, h1.2, h2⟩

theorem cleanSeg_normAbsSegs (l : List String) :
    ∀ s ∈ PathM.normAbsSegs l, PathM.cleanSeg s :=
  cleanSeg_foldl_absStep l [] (by simp)

theorem cleanSeg_resolveP (cwd : List String) (p : PathM.Path) :
    ∀ s ∈ PathM.resolveP cwd p, PathM.cleanSeg s := by
  unfold PathM.resolveP
  split
  · exact cleanSeg_normAbsSegs _
  · exact cleanSeg_normAbsSegs _

theorem foldl_absStep_clean (l : List String) (hl : ∀ s ∈ l, PathM.cleanSeg s) :
    ∀ acc, List.foldl PathM.absStep acc l = acc ++ l := by
  induction l with
  | nil => simp
  | cons a t ih =>
    intro acc
    have ha := hl a (List.mem_cons_self a t)
    have step : PathM.absStep acc a = acc ++ [a] := by
      unfold PathM.absStep
      rw [if_neg (by rintro (h | h); exacts [ha.1 h, ha.2.1 h]), if_neg ha.2.2]
    rw [List.foldl_cons, step, ih (fun s hs => hl s (List.mem_cons_of_mem a hs))]
    simp

theorem resolveP_pathJoin (cwd : List String) (base : PathM.Path) (rel : List String)
    (hrel : ∀ s ∈ rel, PathM.cleanSeg s) :
    PathM.resolveP cwd (PathM.pathJoin base rel) = PathM.resolveP cwd base ++ rel := by
  rcases base with ⟨ab, segs⟩
  cases ab
  · have e1 : PathM.resolveP cwd (PathM.pathJoin ⟨false, segs⟩ rel) =
        List.foldl PathM.absStep [] (cwd ++ (segs ++ rel)) := rfl
    have e2 : PathM.resolveP cwd ⟨false, segs⟩ =
        List.foldl PathM.absStep [] (cwd ++ segs) := rfl
    rw [e1, e2, ← List.append_assoc, List.foldl_append, foldl_absStep_clean rel hrel]
  · have e1 : PathM.resolveP cwd (PathM.pathJoin ⟨true, segs⟩ rel) =
        List.foldl PathM.absStep [] (segs ++ rel) := rfl
    have e2 : PathM.resolveP cwd ⟨true, segs⟩ =
        List.foldl PathM.absStep [] segs := rfl
    rw [e1, e2, List.foldl_append, foldl_absStep_clean rel hrel]

theorem isPrefixOf_append {α : Type} [BEq α] [LawfulBEq α] (l t : List α) :
    l.isPrefixOf (l ++ t) = true := by
  induction l with
  | nil => simp [List.isPrefixOf]
  | cons a l ih => simp [List.isPrefixOf, ih]

theorem foldl_join_data_prefix (l : List String) :
    ∀ acc : String,
      acc.data <+: (List.foldl (fun a x => a ++ "/" ++ x) acc l).data := by
  induction l with
  | nil =>
    intro acc
    exact List.prefix_refl _
  | cons b t ih =>
    intro acc
    rw [List.foldl_cons]
    refine List.IsPrefix.trans ?_ (ih (acc ++ "/" ++ b))
    rw [String.data_append, String.data_append]
    rw [List.append_assoc]
    exact List.prefix_append _ _

theorem jsStartsWith_joinSegs_dotdot (l : List String) :
    PathM.jsStartsWith (PathM.joinSegs (".." :: l)) ".." = true := by
  unfold PathM.jsStartsWith PathM.joinSegs
  rcases foldl_join_data_prefix l ".." with ⟨t, ht⟩
  rw [← ht]
  exact isPrefixOf_append _ _

theorem cpl_le_left (a b : List String) : PathM.cpl a b ≤ a.length := by
  induction a generalizing b with
  | nil => cases b <;> simp [PathM.cpl]
  | cons x xs ih =>
    cases b with
    | nil => simp [PathM.cpl]
    | cons y ys =>
      unfold PathM.cpl
      by_cases hxy : x = y
      · rw [if_pos hxy, List.length_cons]
        exact Nat.succ_le_succ (ih ys)
      · rw [if_neg hxy]
        exact Nat.zero_le _

theorem rebaseOne_def (cwd : List String) (cachedBase newBase p : PathM.Path) :
    Rebase.rebaseOne cwd cachedBase newBase p =
      (if PathM.jsStartsWith (PathM.joinSegs (PathM.relSegs cwd cachedBase p)) ".." then
        Except.error ("Cached output path escapes base directory: " ++ PathM.printPath p ++
          " (base: " ++ PathM.printPath cachedBase ++ ")")
      else Except.ok (PathM.pathJoin newBase (PathM.relSegs cwd cachedBase p))) := rfl

theorem relSegs_def (cwd : List String) (f t : PathM.Path) :
    PathM.relSegs cwd f t =
      List.replicate ((PathM.resolveP cwd f).length -
          PathM.cpl (PathM.resolveP cwd f) (PathM.resolveP cwd t)) ".." ++
        (PathM.resolveP cwd t).drop
          (PathM.cpl (PathM.resolveP cwd f) (PathM.resolveP cwd t)) := rfl

theorem rebaseOne_ok_isUnder (cwd : List String) (cachedBase newBase p q : PathM.Path)
    (h : Rebase.rebaseOne cwd cachedBase newBase p = .ok q) :
    PathM.isUnder cwd newBase q = true := by
  rw [rebaseOne_def] at h
  rcases hk : (PathM.resolveP cwd cachedBase).length -
      PathM.cpl (PathM.resolveP cwd cachedBase) (PathM.resolveP cwd p) with _ | k
  · have hrel : PathM.relSegs cwd cachedBase p =
        (PathM.resolveP cwd p).drop
          (PathM.cpl (PathM.resolveP cwd cachedBase) (PathM.resolveP cwd p)) := by
      rw [relSegs_def, hk]
      rfl
    have hclean : ∀ s ∈ PathM.relSegs cwd cachedBase p, PathM.cleanSeg s := by
      rw [hrel]
      intro s hs
      exact cleanSeg_resolveP cwd p s (List.mem_of_mem_drop hs)
    rcases hguard : PathM.jsStartsWith (PathM.joinSegs (PathM.relSegs cwd cachedBase p)) ".."
      with _ | _
    · rw [hguard] at h
      simp only [Bool.false_eq_true, if_false, Except.ok.injEq] at h
      subst h
      unfold PathM.isUnder
      rw [resolveP_pathJoin cwd newBase _ hclean]
      exact isPrefixOf_append _ _
    · rw [hguard] at h
      simp at h
  · exfalso
    have hrel : PathM.relSegs cwd cachedBase p =
        ".." :: (List.replicate k ".." ++ (PathM.resolveP cwd p).drop
          (PathM.cpl (PathM.resolveP cwd cachedBase) (PathM.resolveP cwd p))) := by
      rw [relSegs_def, hk, List.replicate_succ]
      rfl
    rw [hrel, jsStartsWith_joinSegs_dotdot] at h
    simp at h

theorem rebasePaths_ok_isUnder (cwd : List String) (cachedBase newBase : PathM.Path)
    (ps : List PathM.Path) :
    ∀ qs, Rebase.rebasePaths cwd cachedBase newBase ps = .ok qs →
      ∀ q ∈ qs, PathM.isUnder cwd newBase q = true := by
  induction ps with
  | nil =>
    intro qs h q hq
    simp only [Rebase.rebasePaths, Except.ok.injEq] at h
    subst h
    cases hq
  | cons p t ih =>
    intro qs h q hq
    unfold Rebase.rebasePaths at h
    rcases h1 : Rebase.rebaseOne cwd cachedBase newBase p with e | q0
    · rw [h1] at h
      cases h
    · rw [h1] at h
      rcases h2 : Rebase.rebasePaths cwd cachedBase newBase t with e | qs0
      · rw [h2] at h
        cases h
      · rw [h2] at h
        simp only [Except.ok.injEq] at h
        subst h
        rcases List.mem_cons.mp hq with rfl | hq0
        · exact rebaseOne_ok_isUnder cwd cachedBase newBase p q h1
        · exact ih qs0 h2 q hq0

theorem rebasePaths_err_of_dotdot (cwd : List String) (cachedBase newBase : PathM.Path)
    (ps : List PathM.Path) (p : PathM.Path) (hp : p ∈ ps)
    (hh : (PathM.relSegs cwd cachedBase p).head? = some "..") :
    isErr (Rebase.rebasePaths cwd cachedBase newBase ps) = true := by
  induction ps with
  | nil => cases hp
  | cons a t ih =>
    unfold Rebase.rebasePaths
    rcases h1 : Rebase.rebaseOne cwd cachedBase newBase a with e | q0
    · rfl
    · rcases List.mem_cons.mp hp with rfl | hpt
      · exfalso
        have hcons : ∃ t2, PathM.relSegs cwd cachedBase p = ".." :: t2 := by
          rcases hr : PathM.relSegs cwd cachedBase p with _ | ⟨x, xs⟩
          · rw [hr] at hh
            cases hh
          · rw [hr] at hh
            injection hh with hx
            exact ⟨xs, by rw [hx]⟩
        rcases hcons with ⟨t2, ht2⟩
        rw [rebaseOne_def, ht2, jsStartsWith_joinSegs_dotdot] at h1
        simp at h1
      · have := ih hpt
        rcases h2 : Rebase.rebasePaths cwd cachedBase newBase t with e | qs0
        · rfl
        · rw [h2] at this
          cases this

/-- Claim C3: on a cache hit whose output paths cannot be recalculated
(secondary outputs), each cached path is rebased by taking its position
relative to the entry's outputBaseDir and joining it onto the current output
base; a relative position beginning with a '..' segment makes the envelope
throw, and every successfully rebased path lies at or under the current
output base directory. -/
theorem c3_rebase_path_safety (cwd : List String) (cachedBase newBase : PathM.Path)
    (ps : List PathM.Path) :
    (∀ p ∈ ps, (PathM.relSegs cwd cachedBase p).head? = some ".." →
      isErr (Rebase.rebasePaths cwd cachedBase newBase ps) = true) ∧
    (∀ qs, Rebase.rebasePaths cwd cachedBase newBase ps = .ok qs →
      ∀ q ∈ qs, PathM.isUnder cwd newBase q = true) :=
  ⟨fun p hp hh => rebasePaths_err_of_dotdot cwd cachedBase newBase ps p hp hh,
   fun qs h q hq => rebasePaths_ok_isUnder cwd cachedBase newBase ps qs h q hq⟩

/-- Claim C3 witness: rebasing two cached secondary outputs from nodeA's
build directory onto nodeB's keeps both under nodeB's directory, and a
cached path outside the cached base makes the loop throw. -/
theorem c3_witness :
    (Rebase.rebasePaths ["w"] ⟨false, [".efes-build", "nodeA"]⟩
        ⟨false, [".efes-build", "nodeB"]⟩
        [⟨false, [".efes-build", "nodeA", "sub", "f.html"]⟩,
         ⟨false, [".efes-build", "nodeA", "g.html"]⟩] =
      .ok [⟨false, [".efes-build", "nodeB", "sub", "f.html"]⟩,
           ⟨false, [".efes-build", "nodeB", "g.html"]⟩]) ∧
    PathM.isUnder ["w"] ⟨false, [".efes-build", "nodeB"]⟩
      ⟨false, [".efes-build", "nodeB", "sub", "f.html"]⟩ = true ∧
    isErr (Rebase.rebasePaths ["w"] ⟨false, [".efes-build", "nodeA"]⟩
        ⟨false, [".efes-build", "nodeB"]⟩
        [⟨false, [".efes-build", "other", "g.html"]⟩]) = true :=
  ⟨by rfl,
   (c3_rebase_path_safety ["w"] ⟨false, [".efes-build", "nodeA"]⟩
       ⟨false, [".efes-build", "nodeB"]⟩
       [⟨false, [".efes-build", "nodeA", "sub", "f.html"]⟩,
        ⟨false, [".efes-build", "nodeA", "g.html"]⟩]).2
     [⟨false, [".efes-build", "nodeB", "sub", "f.html"]⟩,
      ⟨false, [".efes-build", "nodeB", "g.html"]⟩]
     (by rfl) ⟨false, [".efes-build", "nodeB", "sub", "f.html"]⟩ (by decide),
   (c3_rebase_path_safety ["w"] ⟨false, [".efes-build", "nodeA"]⟩
       ⟨false, [".efes-build", "nodeB"]⟩
       [⟨false, [".efes-build", "other", "g.html"]⟩]).1
     ⟨false, [".efes-build", "other", "g.html"]⟩ (by decide) (by rfl)⟩

theorem mem_cacheMisses_iff (items : List String) (keyOf : String → String)
    (hitRes : Nat → Option Envelope.Outputs) (m : Envelope.MissRec) :
    m ∈ Envelope.cacheMisses items keyOf hitRes ↔
      m.index < items.length ∧ hitRes m.index = none ∧
        m = Envelope.missOf items keyOf m.index := by
  unfold Envelope.cacheMisses
  rw [List.mem_filterMap]
  constructor
  · rintro ⟨i, hi, hf⟩
    rw [List.mem_range] at hi
    rcases h : hitRes i with _ | o
    · rw [h] at hf
      simp only [Option.some.injEq] at hf
      subst hf
      exact ⟨hi, h, rfl⟩
    · rw [h] at hf
      cases hf
  · rintro ⟨hi, hnone, hm⟩
    refine ⟨m.index, List.mem_range.mpr hi, ?_⟩
    rw [hnone, hm]
    rfl

theorem phase3_length (work : String → Envelope.Outputs) (order : List Envelope.MissRec) :
    ∀ res, (Envelope.phase3 work res order).length = res.length := by
  induction order with
  | nil =>
    intro res
    rfl
  | cons a rest ih =>
    intro res
    unfold Envelope.phase3 at *
    rw [List.foldl_cons, ih]
    unfold Envelope.applyCompletion
    exact List.length_set res a.index _

theorem phase3_getElem?_frozen (work : String → Envelope.Outputs)
    (order : List Envelope.MissRec) (i : Nat) (h : ∀ m ∈ order, m.index ≠ i) :
    ∀ res, (Envelope.phase3 work res order)[i]? = res[i]? := by
  induction order with
  | nil =>
    intro res
    rfl
  | cons a rest ih =>
    intro res
    unfold Envelope.phase3 at *
    rw [List.foldl_cons, ih (fun m hm => h m (List.mem_cons_of_mem a hm))]
    unfold Envelope.applyCompletion
    exact List.getElem?_set_ne (h a (List.mem_cons_self a rest))

theorem phase3_getElem?_write (work : String → Envelope.Outputs)
    (order : List Envelope.MissRec) (m : Envelope.MissRec) (hmem : m ∈ order)
    (huniq : ∀ m' ∈ order, m'.index = m.index → m' = m) :
    ∀ res, m.index < res.length →
      (Envelope.phase3 work res order)[m.index]? =
        some (some { item := m.item, outputs := work m.item, cached := false }) := by
  induction order with
  | nil => cases hmem
  | cons a rest ih =>
    intro res hlen
    by_cases hrest : ∃ m' ∈ rest, m'.index = m.index
    · rcases hrest with ⟨m', hm', hidx⟩
      have hm'm : m' = m := huniq m' (List.mem_cons_of_mem a hm') hidx
      subst hm'm
      unfold Envelope.phase3 at *
      rw [List.foldl_cons]
      exact ih hm' (fun x hx hix => huniq x (List.mem_cons_of_mem a hx) hix) _
        (by rw [Envelope.applyCompletion, List.length_set]; exact hlen)
    · have ham : a = m := by
        rcases List.mem_cons.mp hmem with h | h
        · exact h.symm
        · exact absurd ⟨m, h, rfl⟩ hrest
      subst ham
      unfold Envelope.phase3
      rw [List.foldl_cons]
      have hfrozen : ∀ m' ∈ rest, m'.index ≠ a.index := by
        intro m' hm' hix
        exact hrest ⟨m', hm', hix⟩
      rw [show List.foldl (Envelope.applyCompletion work)
            (Envelope.applyCompletion work res a) rest =
          Envelope.phase3 work (Envelope.applyCompletion work res a) rest from rfl]
      rw [phase3_getElem?_frozen work rest a.index hfrozen]
      unfold Envelope.applyCompletion
      exact List.getElem?_set_self hlen

theorem phase1_length (items : List String) (hitRes : Nat → Option Envelope.Outputs) :
    (Envelope.phase1Results items hitRes).length = items.length := by
  unfold Envelope.phase1Results
  rw [List.length_map, List.length_range]

theorem expectedResult_item (items : List String) (hitRes : Nat → Option Envelope.Outputs)
    (work : String → Envelope.Outputs) (i : Nat) :
    (Envelope.expectedResult items hitRes work i).item = items.getD i "" := by
  unfold Envelope.expectedResult
  rcases hitRes i <;> rfl

theorem phase3_final (items : List String) (keyOf : String → String)
    (hitRes : Nat → Option Envelope.Outputs) (work : String → Envelope.Outputs)
    (order : List Envelope.MissRec)
    (hperm : order.Perm (Envelope.cacheMisses items keyOf hitRes)) :
    Envelope.phase3 work (Envelope.phase1Results items hitRes) order =
      (List.range items.length).map
        (fun i => some (Envelope.expectedResult items hitRes work i)) := by
  apply List.ext_getElem?
  intro n
  by_cases hn : n < items.length
  · rw [List.getElem?_map, List.getElem?_range hn]
    rcases h : hitRes n with _ | o
    · have hmem : Envelope.missOf items keyOf n ∈ order :=
        hperm.mem_iff.mpr
          ((mem_cacheMisses_iff items keyOf hitRes _).mpr ⟨hn, h, rfl⟩)
      have huniq : ∀ m' ∈ order,
          m'.index = (Envelope.missOf items keyOf n).index →
            m' = Envelope.missOf items keyOf n := by
        intro m' hm' hidx
        have hc := (mem_cacheMisses_iff items keyOf hitRes m').mp (hperm.mem_iff.mp hm')
        rw [hc.2.2]
        rw [show (Envelope.missOf items keyOf n).index = n from rfl] at hidx
        rw [hidx]
      have hw := phase3_getElem?_write work order (Envelope.missOf items keyOf n) hmem huniq
        (Envelope.phase1Results items hitRes)
        (by rw [phase1_length]; exact hn)
      rw [show (Envelope.missOf items keyOf n).index = n from rfl] at hw
      rw [hw]
      unfold Envelope.expectedResult
      simp only [Option.map_some']
      rw [h]
      rfl
    · have hfrozen : ∀ m ∈ order, m.index ≠ n := by
        intro m hm hidx
        have hc := (mem_cacheMisses_iff items keyOf hitRes m).mp (hperm.mem_iff.mp hm)
        rw [hidx] at hc
        rw [hc.2.1] at h
        cases h
      rw [phase3_getElem?_frozen work order n hfrozen]
      unfold Envelope.phase1Results
      rw [List.getElem?_map, List.getElem?_range hn]
      unfold Envelope.expectedResult
      simp only [Option.map_some']
      rw [h]
  · have h1 : (Envelope.phase3 work (Envelope.phase1Results items hitRes) order).length ≤ n := by
      rw [phase3_length, phase1_length]
      omega
    have h2 : ((List.range items.length).map
        (fun i => some (Envelope.expectedResult items hitRes work i))).length ≤ n := by
      rw [List.length_map, List.length_range]
      omega
    rw [List.getElem?_len_le h1, List.getElem?_len_le h2]

/-- Claim C4: the per-item envelope returns exactly one result per element of
items, in the order of items (the i-th result's item field is items[i]),
whatever order the parallel work for the cache misses completes in. -/
theorem c4_order_preservation (items : List String) (keyOf : String → String)
    (hitRes : Nat → Option Envelope.Outputs) (work : String → Envelope.Outputs)
    (order : List Envelope.MissRec)
    (hperm : order.Perm (Envelope.cacheMisses items keyOf hitRes)) :
    (Envelope.withCacheResults items keyOf hitRes work order).length = items.length ∧
    ∀ i, i < items.length →
      ((Envelope.withCacheResults items keyOf hitRes work order).getD i
          { item := "", outputs := [], cached := false }).item = items.getD i "" := by
  have hfin := phase3_final items keyOf hitRes work order hperm
  unfold Envelope.withCacheResults
  rw [hfin]
  have hmapfm : (List.filterMap id ((List.range items.length).map
      (fun i => some (Envelope.expectedResult items hitRes work i)))) =
      (List.range items.length).map (Envelope.expectedResult items hitRes work) := by
    rw [List.filterMap_map]
    exact List.filterMap_eq_map _ ▸ rfl
  rw [hmapfm]
  constructor
  · rw [List.length_map, List.length_range]
  · intro i hi
    rw [List.getD_eq_getElem?_getD, List.getElem?_map, List.getElem?_range hi]
    exact expectedResult_item items hitRes work i

/-- Claim C4 witness: three items, the middle one a cache hit, with the two
misses completing in reversed order; the results still align with the items. -/
theorem c4_witness :
    ((Envelope.withCacheResults ["a.xml", "b.xml", "c.xml"] (fun s => s)
        (fun i => if i = 1 then some [("out", ["hit.html"])] else none)
        (fun s => [("out", [s])])
        [{ item := "c.xml", cacheKey := "c.xml", index := 2 },
         { item := "a.xml", cacheKey := "a.xml", index := 0 }]).length = 3) ∧
    ((Envelope.withCacheResults ["a.xml", "b.xml", "c.xml"] (fun s => s)
        (fun i => if i = 1 then some [("out", ["hit.html"])] else none)
        (fun s => [("out", [s])])
        [{ item := "c.xml", cacheKey := "c.xml", index := 2 },
         { item := "a.xml", cacheKey := "a.xml", index := 0 }]).getD 2
      { item := "", outputs := [], cached := false }).item = "c.xml" :=
  ⟨(c4_order_preservation ["a.xml", "b.xml", "c.xml"] (fun s => s)
      (fun i => if i = 1 then some [("out", ["hit.html"])] else none)
      (fun s => [("out", [s])])
      [{ item := "c.xml", cacheKey := "c.xml", index := 2 },
       { item := "a.xml", cacheKey := "a.xml", index := 0 }]
      (by decide)).1,
   (c4_order_preservation ["a.xml", "b.xml", "c.xml"] (fun s => s)
      (fun i => if i = 1 then some [("out", ["hit.html"])] else none)
      (fun s => [("out", [s])])
      [{ item := "c.xml", cacheKey := "c.xml", index := 2 },
       { item := "a.xml", cacheKey := "a.xml", index := 0 }]
      (by decide)).2 2 (by decide)⟩

theorem flatMap_congr {α β : Type} (l : List α) {f g : α → List β}
    (h : ∀ a ∈ l, f a = g a) : l.flatMap f = l.flatMap g := by
  induction l with
  | nil => rfl
  | cons a t ih =>
    rw [List.flatMap_cons, List.flatMap_cons, h a (List.mem_cons_self a t),
      ih (fun x hx => h x (List.mem_cons_of_mem a hx))]

theorem deps_zero_eq_nil (deps : Nat → List Nat) (hdag : ∀ i, ∀ j ∈ deps i, j < i) :
    deps 0 = [] := by
  rcases h : deps 0 with _ | ⟨j, t⟩
  · rfl
  · exact absurd (hdag 0 j (h ▸ List.mem_cons_self j t)) (Nat.not_lt_zero j)

theorem tdepsF_stable (deps : Nat → List Nat) (hdag : ∀ i, ∀ j ∈ deps i, j < i) :
    ∀ i f g, i ≤ f → i ≤ g → Waves.tdepsF deps f i = Waves.tdepsF deps g i := by
  intro i
  induction i using Nat.strong_induction_on with
  | _ i ih =>
    intro f g hf hg
    rcases i with _ | m
    · have hz := deps_zero_eq_nil deps hdag
      rcases f with _ | f' <;> rcases g with _ | g' <;>
        simp [Waves.tdepsF, hz]
    · rcases f with _ | f'
      · omega
      · rcases g with _ | g'
        · omega
        · show (deps (m + 1)).flatMap _ = (deps (m + 1)).flatMap _
          refine flatMap_congr _ (fun j hj => ?_)
          have hji : j < m + 1 := hdag (m + 1) j hj
          rw [ih j hji f' g' (by omega) (by omega)]

theorem mem_tdepsF_lt (deps : Nat → List Nat) (hdag : ∀ i, ∀ j ∈ deps i, j < i) :
    ∀ f i j, j ∈ Waves.tdepsF deps f i → j < i := by
  intro f
  induction f with
  | zero =>
    intro i j hj
    cases hj
  | succ f ih =>
    intro i j hj
    rcases List.mem_flatMap.mp hj with ⟨k, hk, hjk⟩
    have hki := hdag i k hk
    rcases List.mem_cons.mp hjk with rfl | hjk2
    · exact hki
    · exact Nat.lt_trans (ih k j hjk2) hki

theorem mem_tdeps_of_deps (deps : Nat → List Nat) (hdag : ∀ i, ∀ j ∈ deps i, j < i)
    (i j : Nat) (hj : j ∈ deps i) : j ∈ Waves.tdeps deps i := by
  rcases i with _ | m
  · rw [deps_zero_eq_nil deps hdag] at hj
    cases hj
  · exact List.mem_flatMap.mpr ⟨j, hj, List.mem_cons_self j _⟩

theorem mem_tdeps_cases (deps : Nat → List Nat) (hdag : ∀ i, ∀ j ∈ deps i, j < i)
    (i t : Nat) (ht : t ∈ Waves.tdeps deps i) :
    t ∈ deps i ∨ ∃ k ∈ deps i, t ∈ Waves.tdeps deps k := by
  rcases i with _ | m
  · cases ht
  · rcases List.mem_flatMap.mp ht with ⟨k, hk, htk⟩
    rcases List.mem_cons.mp htk with rfl | htk2
    · exact Or.inl hk
    · refine Or.inr ⟨k, hk, ?_⟩
      have hki : k < m + 1 := hdag (m + 1) k hk
      rwa [tdepsF_stable deps hdag k m k (by omega) (by omega)] at htk2

theorem depthF_stable (deps : Nat → List Nat) (hdag : ∀ i, ∀ j ∈ deps i, j < i) :
    ∀ i f g, i ≤ f → i ≤ g → Waves.depthF deps f i = Waves.depthF deps g i := by
  intro i
  induction i using Nat.strong_induction_on with
  | _ i ih =>
    intro f g hf hg
    rcases i with _ | m
    · have hz : Waves.tdeps deps 0 = [] := rfl
      rcases f with _ | f' <;> rcases g with _ | g' <;>
        simp [Waves.depthF, hz]
    · rcases f with _ | f'
      · omega
      · rcases g with _ | g'
        · omega
        · show (if (Waves.tdeps deps (m + 1)).isEmpty then 0
              else Waves.listMax ((Waves.tdeps deps (m + 1)).map (Waves.depthF deps f')) + 1) =
            (if (Waves.tdeps deps (m + 1)).isEmpty then 0
              else Waves.listMax ((Waves.tdeps deps (m + 1)).map (Waves.depthF deps g')) + 1)
          rcases hemp : (Waves.tdeps deps (m + 1)).isEmpty
          · rw [if_neg Bool.false_ne_true, if_neg Bool.false_ne_true]
            refine congrArg (· + 1) (congrArg Waves.listMax ?_)
            refine List.map_congr_left (fun j hj => ?_)
            have hji : j < m + 1 := mem_tdepsF_lt deps hdag _ _ _ hj
            exact ih j hji f' g' (by omega) (by omega)
          · rw [if_pos rfl, if_pos rfl]

theorem depth_unfold (deps : Nat → List Nat) (hdag : ∀ i, ∀ j ∈ deps i, j < i) (i : Nat) :
    Waves.depth deps i =
      (if (Waves.tdeps deps i).isEmpty then 0
       else Waves.listMax ((Waves.tdeps deps i).map (Waves.depth deps)) + 1) := by
  rcases i with _ | m
  · rfl
  · show Waves.depthF deps (m + 1) (m + 1) = _
    show (if (Waves.tdeps deps (m + 1)).isEmpty then 0
        else Waves.listMax ((Waves.tdeps deps (m + 1)).map (Waves.depthF deps m)) + 1) = _
    rcases hemp : (Waves.tdeps deps (m + 1)).isEmpty
    · rw [if_neg Bool.false_ne_true, if_neg Bool.false_ne_true]
      refine congrArg (· + 1) (congrArg Waves.listMax ?_)
      refine List.map_congr_left (fun j hj => ?_)
      have hji : j < m + 1 := mem_tdepsF_lt deps hdag _ _ _ hj
      exact depthF_stable deps hdag j m j (by omega) (by omega)
    · rw [if_pos rfl, if_pos rfl]

theorem le_listMax_of_mem {l : List Nat} {x : Nat} (h : x ∈ l) : x ≤ Waves.listMax l := by
  unfold Waves.listMax
  have key : ∀ (l2 : List Nat) (acc : Nat),
      (x ∈ l2 → x ≤ l2.foldl max acc) ∧ acc ≤ l2.foldl max acc := by
    intro l2
    induction l2 with
    | nil =>
      intro acc
      exact ⟨fun hx => absurd hx (List.not_mem_nil x), Nat.le_refl acc⟩
    | cons a t ih =>
      intro acc
      rw [List.foldl_cons]
      constructor
      · intro hx
        rcases List.mem_cons.mp hx with rfl | hxt
        · exact Nat.le_trans (Nat.le_max_right acc x) (ih (max acc x)).2
        · exact (ih (max acc a)).1 hxt
      · exact Nat.le_trans (Nat.le_max_left acc a) (ih (max acc a)).2
  exact (key l 0).1 h

theorem listMax_le {l : List Nat} {m : Nat} (h : ∀ x ∈ l, x ≤ m) : Waves.listMax l ≤ m := by
  unfold Waves.listMax
  have key : ∀ (l2 : List Nat), (∀ x ∈ l2, x ≤ m) →
      ∀ acc, acc ≤ m → l2.foldl max acc ≤ m := by
    intro l2
    induction l2 with
    | nil =>
      intro _ acc hacc
      exact hacc
    | cons a t ih =>
      intro h2 acc hacc
      rw [List.foldl_cons]
      exact ih (fun x hx => h2 x (List.mem_cons_of_mem a hx)) _
        (Nat.max_le.mpr (And.intro hacc (h2 a (List.mem_cons_self a t))))
  exact key l h 0 (Nat.zero_le m)

theorem depth_lt_of_mem_tdeps (deps : Nat → List Nat) (hdag : ∀ i, ∀ j ∈ deps i, j < i)
    (i t : Nat) (ht : t ∈ Waves.tdeps deps i) :
    Waves.depth deps t < Waves.depth deps i := by
  rw [depth_unfold deps hdag i,
    if_neg (by
      simp only [Bool.not_eq_true, List.isEmpty_eq_false_iff_exists_mem]
      exact ⟨t, ht⟩)]
  have : Waves.depth deps t ≤ Waves.listMax ((Waves.tdeps deps i).map (Waves.depth deps)) :=
    le_listMax_of_mem (List.mem_map_of_mem _ ht)
  omega

theorem depth_recurrence (deps : Nat → List Nat) (hdag : ∀ i, ∀ j ∈ deps i, j < i) (i : Nat) :
    (deps i = [] → Waves.depth deps i = 0) ∧
    (deps i ≠ [] → Waves.depth deps i =
      Waves.listMax ((deps i).map (Waves.depth deps)) + 1) := by
  constructor
  · intro hnil
    rw [depth_unfold deps hdag i, if_pos]
    rcases i with _ | m
    · rfl
    · show ((deps (m + 1)).flatMap _).isEmpty = true
      rw [hnil]
      rfl
  · intro hne
    rcases List.exists_mem_of_ne_nil (deps i) hne with ⟨j, hj⟩
    have hjt : j ∈ Waves.tdeps deps i := mem_tdeps_of_deps deps hdag i j hj
    rw [depth_unfold deps hdag i,
      if_neg (by
        simp only [Bool.not_eq_true, List.isEmpty_eq_false_iff_exists_mem]
        exact ⟨j, hjt⟩)]
    refine congrArg (· + 1) (Nat.le_antisymm ?_ ?_)
    · refine listMax_le (fun x hx => ?_)
      rcases List.mem_map.mp hx with ⟨t, ht, rfl⟩
      rcases mem_tdeps_cases deps hdag i t ht with hdir | ⟨k, hk, htk⟩
      · exact le_listMax_of_mem (List.mem_map_of_mem _ hdir)
      · exact Nat.le_trans (Nat.le_of_lt (depth_lt_of_mem_tdeps deps hdag k t htk))
          (le_listMax_of_mem (List.mem_map_of_mem _ hk))
    · refine listMax_le (fun x hx => ?_)
      rcases List.mem_map.mp hx with ⟨k, hk, rfl⟩
      exact le_listMax_of_mem
        (List.mem_map_of_mem _ (mem_tdeps_of_deps deps hdag i k hk))

theorem mem_waveNodes_iff (deps : Nat → List Nat) (numNodes d n : Nat) :
    n ∈ Waves.waveNodes deps numNodes d ↔ n < numNodes ∧ Waves.depth deps n = d := by
  unfold Waves.waveNodes
  rw [List.mem_filter, List.mem_range]
  exact and_congr Iff.rfl (by rw [Nat.beq_eq_true_eq])

theorem mem_sortedDepths_iff (deps : Nat → List Nat) (numNodes d : Nat) :
    d ∈ Waves.sortedDepths deps numNodes ↔
      ∃ n, n < numNodes ∧ Waves.depth deps n = d := by
  unfold Waves.sortedDepths
  rw [List.mem_filter, List.mem_range]
  constructor
  · rintro ⟨_, hne⟩
    rw [Bool.not_eq_eq_eq_not, Bool.not_true, List.isEmpty_eq_false_iff_exists_mem] at hne
    rcases hne with ⟨n, hn⟩
    exact ⟨n, (mem_waveNodes_iff deps numNodes d n).mp hn⟩
  · rintro ⟨n, hn, hd⟩
    have hmem : n ∈ Waves.waveNodes deps numNodes d :=
      (mem_waveNodes_iff deps numNodes d n).mpr ⟨hn, hd⟩
    constructor
    · have : d ≤ Waves.listMax ((List.range numNodes).map (Waves.depth deps)) := by
        refine le_listMax_of_mem ?_
        rw [← hd]
        exact List.mem_map_of_mem _ (List.mem_range.mpr hn)
      omega
    · rw [Bool.not_eq_eq_eq_not, Bool.not_true, List.isEmpty_eq_false_iff_exists_mem]
      exact ⟨n, hmem⟩

theorem sortedDepths_pairwise (deps : Nat → List Nat) (numNodes : Nat) :
    (Waves.sortedDepths deps numNodes).Pairwise (· < ·) :=
  List.Pairwise.sublist (List.filter_sublist _) (List.pairwise_lt_range _)

theorem posOf_cons (e a : Waves.Ev) (t : List Waves.Ev) :
    Waves.posOf e (a :: t) = if a = e then 0 else Waves.posOf e t + 1 := rfl

theorem posOf_append_left (e : Waves.Ev) (A B : List Waves.Ev) (h : e ∈ A) :
    Waves.posOf e (A ++ B) = Waves.posOf e A := by
  induction A with
  | nil => cases h
  | cons a t ih =>
    rw [List.cons_append, posOf_cons, posOf_cons]
    by_cases hae : a = e
    · rw [if_pos hae, if_pos hae]
    · rw [if_neg hae, if_neg hae,
        ih (by rcases List.mem_cons.mp h with h2 | h2; exact absurd h2.symm hae; exact h2)]

theorem posOf_append_right (e : Waves.Ev) (A B : List Waves.Ev) (h : e ∉ A) :
    Waves.posOf e (A ++ B) = A.length + Waves.posOf e B := by
  induction A with
  | nil => simp
  | cons a t ih =>
    rw [List.cons_append, posOf_cons]
    rw [if_neg (fun hae => h (by rw [← hae]; exact List.mem_cons_self a t)),
      ih (fun he => h (List.mem_cons_of_mem a he)), List.length_cons]
    omega

theorem posOf_lt_length (e : Waves.Ev) (A : List Waves.Ev) (h : e ∈ A) :
    Waves.posOf e A < A.length := by
  induction A with
  | nil => cases h
  | cons a t ih =>
    rw [posOf_cons, List.length_cons]
    by_cases hae : a = e
    · rw [if_pos hae]
      omega
    · rw [if_neg hae]
      have := ih (by rcases List.mem_cons.mp h with h2 | h2; exact absurd h2.symm hae; exact h2)
      omega

theorem start_mem_block_iff (deps : Nat → List Nat) (numNodes : Nat) (fo : Nat → List Nat)
    (d b : Nat) :
    Waves.Ev.start b ∈ Waves.block deps numNodes fo d ↔
      b ∈ Waves.waveNodes deps numNodes d := by
  unfold Waves.block
  rw [List.mem_append]
  constructor
  · rintro (h | h)
    · rcases List.mem_map.mp h with ⟨x, hx, hinj⟩
      injection hinj with h2
      rwa [← h2]
    · rcases List.mem_map.mp h with ⟨x, _, hinj⟩
      cases hinj
  · intro h
    exact Or.inl (List.mem_map_of_mem _ h)

theorem fin_mem_block_iff (deps : Nat → List Nat) (numNodes : Nat) (fo : Nat → List Nat)
    (d a : Nat) :
    Waves.Ev.fin a ∈ Waves.block deps numNodes fo d ↔ a ∈ fo d := by
  unfold Waves.block
  rw [List.mem_append]
  constructor
  · rintro (h | h)
    · rcases List.mem_map.mp h with ⟨x, _, hinj⟩
      cases hinj
    · rcases List.mem_map.mp h with ⟨x, hx, hinj⟩
      injection hinj with h2
      rwa [← h2]
  · intro h
    exact Or.inr (List.mem_map_of_mem _ h)

theorem trace_fin_before_start (deps : Nat → List Nat) (numNodes : Nat)
    (fo : Nat → List Nat)
    (hfo : ∀ d, (fo d).Perm (Waves.waveNodes deps numNodes d))
    (a b d1 d2 : Nat)
    (ha : a ∈ Waves.waveNodes deps numNodes d1)
    (hb : b ∈ Waves.waveNodes deps numNodes d2) (hlt : d1 < d2) :
    ∀ D : List Nat, D.Pairwise (· < ·) → d1 ∈ D → d2 ∈ D →
      Waves.posOf (Waves.Ev.fin a) (D.flatMap (Waves.block deps numNodes fo)) <
        Waves.posOf (Waves.Ev.start b) (D.flatMap (Waves.block deps numNodes fo)) := by
  intro D
  induction D with
  | nil =>
    intro _ h
    cases h
  | cons d D2 ih =>
    intro hD hd1 hd2
    have hDr := List.pairwise_cons.mp hD
    rw [List.flatMap_cons]
    by_cases h1 : d1 = d
    · subst h1
      have hfa : Waves.Ev.fin a ∈ Waves.block deps numNodes fo d1 :=
        (fin_mem_block_iff deps numNodes fo d1 a).mpr ((hfo d1).mem_iff.mpr ha)
      have hsb : Waves.Ev.start b ∉ Waves.block deps numNodes fo d1 := by
        intro hm
        have hbw := (start_mem_block_iff deps numNodes fo d1 b).mp hm
        have e1 := (mem_waveNodes_iff deps numNodes d1 b).mp hbw
        have e2 := (mem_waveNodes_iff deps numNodes d2 b).mp hb
        omega
      rw [posOf_append_left _ _ _ hfa, posOf_append_right _ _ _ hsb]
      have := posOf_lt_length _ _ hfa
      omega
    · have hd1' : d1 ∈ D2 := by
        rcases List.mem_cons.mp hd1 with h | h
        · exact absurd h h1
        · exact h
      have hdlt : d < d1 := hDr.1 d1 hd1'
      have hd2' : d2 ∈ D2 := by
        rcases List.mem_cons.mp hd2 with h | h
        · omega
        · exact h
      have hfa : Waves.Ev.fin a ∉ Waves.block deps numNodes fo d := by
        intro hm
        have haw := (hfo d).mem_iff.mp ((fin_mem_block_iff deps numNodes fo d a).mp hm)
        have e1 := (mem_waveNodes_iff deps numNodes d a).mp haw
        have e2 := (mem_waveNodes_iff deps numNodes d1 a).mp ha
        omega
      have hsb : Waves.Ev.start b ∉ Waves.block deps numNodes fo d := by
        intro hm
        have hbw := (start_mem_block_iff deps numNodes fo d b).mp hm
        have e1 := (mem_waveNodes_iff deps numNodes d b).mp hbw
        have e2 := (mem_waveNodes_iff deps numNodes d2 b).mp hb
        omega
      rw [posOf_append_right _ _ _ hfa, posOf_append_right _ _ _ hsb]
      exact Nat.add_lt_add_left (ih hDr.2 hd1' hd2') _

theorem trace_start_before_fin (deps : Nat → List Nat) (numNodes : Nat)
    (fo : Nat → List Nat)
    (hfo : ∀ d, (fo d).Perm (Waves.waveNodes deps numNodes d))
    (a b d : Nat)
    (ha : a ∈ Waves.waveNodes deps numNodes d)
    (hb : b ∈ Waves.waveNodes deps numNodes d) :
    ∀ D : List Nat, d ∈ D →
      Waves.posOf (Waves.Ev.start a) (D.flatMap (Waves.block deps numNodes fo)) <
        Waves.posOf (Waves.Ev.fin b) (D.flatMap (Waves.block deps numNodes fo)) := by
  intro D
  induction D with
  | nil =>
    intro h
    cases h
  | cons d0 D2 ih =>
    intro hd
    rw [List.flatMap_cons]
    by_cases h0 : d = d0
    · subst h0
      have hsa : Waves.Ev.start a ∈ Waves.block deps numNodes fo d :=
        (start_mem_block_iff deps numNodes fo d a).mpr ha
      have hfb : Waves.Ev.fin b ∈ Waves.block deps numNodes fo d :=
        (fin_mem_block_iff deps numNodes fo d b).mpr ((hfo d).mem_iff.mpr hb)
      rw [posOf_append_left _ _ _ hsa, posOf_append_left _ _ _ hfb]
      unfold Waves.block
      have hsa2 : Waves.Ev.start a ∈ (Waves.waveNodes deps numNodes d).map Waves.Ev.start :=
        List.mem_map_of_mem _ ha
      have hfb2 : Waves.Ev.fin b ∉ (Waves.waveNodes deps numNodes d).map Waves.Ev.start := by
        intro hm
        rcases List.mem_map.mp hm with ⟨x, _, hinj⟩
        cases hinj
      rw [posOf_append_left _ _ _ hsa2, posOf_append_right _ _ _ hfb2]
      have := posOf_lt_length _ _ hsa2
      omega
    · have hd' : d ∈ D2 := by
        rcases List.mem_cons.mp hd with h | h
        · exact absurd h h0
        · exact h
      have hsa : Waves.Ev.start a ∉ Waves.block deps numNodes fo d0 := by
        intro hm
        have haw := (start_mem_block_iff deps numNodes fo d0 a).mp hm
        have e1 := (mem_waveNodes_iff deps numNodes d0 a).mp haw
        have e2 := (mem_waveNodes_iff deps numNodes d a).mp ha
        omega
      have hfb : Waves.Ev.fin b ∉ Waves.block deps numNodes fo d0 := by
        intro hm
        have hbw := (hfo d0).mem_iff.mp ((fin_mem_block_iff deps numNodes fo d0 b).mp hm)
        have e1 := (mem_waveNodes_iff deps numNodes d0 b).mp hbw
        have e2 := (mem_waveNodes_iff deps numNodes d b).mp hb
        omega
      rw [posOf_append_right _ _ _ hsa, posOf_append_right _ _ _ hfb]
      exact Nat.add_lt_add_left (ih hd') _

/-- Claim C6: with nodes numbered along the topological execution order,
the code's depth (computed over the transitive dependency set the graph
library returns) satisfies the claimed recurrence: 0 for nodes with no
dependencies, else 1 + the maximum depth of the dependencies; the waves
partition the nodes by equal depth; the wave keys are strictly ascending;
within one wave every node starts before any node of the wave finishes; and
every node of an earlier wave finishes before any node of a later wave
starts, for every completion order of the waves. -/
theorem c6_wave_parallel_schedule (deps : Nat → List Nat) (numNodes : Nat)
    (fo : Nat → List Nat)
    (hdag : ∀ i, ∀ j ∈ deps i, j < i)
    (hfo : ∀ d, (fo d).Perm (Waves.waveNodes deps numNodes d)) :
    (∀ i, (deps i = [] → Waves.depth deps i = 0) ∧
      (deps i ≠ [] →
        Waves.depth deps i = Waves.listMax ((deps i).map (Waves.depth deps)) + 1)) ∧
    (∀ d n, n ∈ Waves.waveNodes deps numNodes d ↔
      n < numNodes ∧ Waves.depth deps n = d) ∧
    ((Waves.sortedDepths deps numNodes).Pairwise (· < ·) ∧
      ∀ w ∈ Waves.sortedWaves deps numNodes, w.2 = Waves.waveNodes deps numNodes w.1) ∧
    (∀ a b, a < numNodes → b < numNodes → Waves.depth deps a = Waves.depth deps b →
      Waves.posOf (Waves.Ev.start a) (Waves.waveTrace deps numNodes fo) <
        Waves.posOf (Waves.Ev.fin b) (Waves.waveTrace deps numNodes fo)) ∧
    (∀ a b, a < numNodes → b < numNodes → Waves.depth deps a < Waves.depth deps b →
      Waves.posOf (Waves.Ev.fin a) (Waves.waveTrace deps numNodes fo) <
        Waves.posOf (Waves.Ev.start b) (Waves.waveTrace deps numNodes fo)) := by
  refine ⟨fun i => depth_recurrence deps hdag i,
    fun d n => mem_waveNodes_iff deps numNodes d n,
    ⟨sortedDepths_pairwise deps numNodes, ?_⟩, ?_, ?_⟩
  · intro w hw
    rcases List.mem_map.mp hw with ⟨d, _, rfl⟩
    rfl
  · intro a b haN hbN hdep
    have ha : a ∈ Waves.waveNodes deps numNodes (Waves.depth deps a) :=
      (mem_waveNodes_iff deps numNodes _ a).mpr ⟨haN, rfl⟩
    have hb : b ∈ Waves.waveNodes deps numNodes (Waves.depth deps a) :=
      (mem_waveNodes_iff deps numNodes _ b).mpr ⟨hbN, hdep.symm⟩
    have hmem : Waves.depth deps a ∈ Waves.sortedDepths deps numNodes :=
      (mem_sortedDepths_iff deps numNodes _).mpr ⟨a, haN, rfl⟩
    exact trace_start_before_fin deps numNodes fo hfo a b _ ha hb
      (Waves.sortedDepths deps numNodes) hmem
  · intro a b haN hbN hdep
    have ha : a ∈ Waves.waveNodes deps numNodes (Waves.depth deps a) :=
      (mem_waveNodes_iff deps numNodes _ a).mpr ⟨haN, rfl⟩
    have hb : b ∈ Waves.waveNodes deps numNodes (Waves.depth deps b) :=
      (mem_waveNodes_iff deps numNodes _ b).mpr ⟨hbN, rfl⟩
    have hma : Waves.depth deps a ∈ Waves.sortedDepths deps numNodes :=
      (mem_sortedDepths_iff deps numNodes _).mpr ⟨a, haN, rfl⟩
    have hmb : Waves.depth deps b ∈ Waves.sortedDepths deps numNodes :=
      (mem_sortedDepths_iff deps numNodes _).mpr ⟨b, hbN, rfl⟩
    exact trace_fin_before_start deps numNodes fo hfo a b _ _ ha hb hdep
      (Waves.sortedDepths deps numNodes) (sortedDepths_pairwise deps numNodes) hma hmb

/-- Claim C6 witness: the diamond graph 3 -> (1, 2) -> 0 with the wave at
depth 1 completing in reversed order; node 1 starts before node 2 finishes
(same wave) and node 0 finishes before node 1 starts (wave barrier). -/
theorem c6_witness :
    Waves.posOf (Waves.Ev.start 1)
        (Waves.waveTrace
          (fun i => if i = 1 then [0] else if i = 2 then [0] else if i = 3 then [1, 2] else [])
          4
          (fun d => if d = 1 then [2, 1]
            else Waves.waveNodes
              (fun i => if i = 1 then [0] else if i = 2 then [0] else if i = 3 then [1, 2]
                else []) 4 d)) <
      Waves.posOf (Waves.Ev.fin 2)
        (Waves.waveTrace
          (fun i => if i = 1 then [0] else if i = 2 then [0] else if i = 3 then [1, 2] else [])
          4
          (fun d => if d = 1 then [2, 1]
            else Waves.waveNodes
              (fun i => if i = 1 then [0] else if i = 2 then [0] else if i = 3 then [1, 2]
                else []) 4 d)) ∧
    Waves.posOf (Waves.Ev.fin 0)
        (Waves.waveTrace
          (fun i => if i = 1 then [0] else if i = 2 then [0] else if i = 3 then [1, 2] else [])
          4
          (fun d => if d = 1 then [2, 1]
            else Waves.waveNodes
              (fun i => if i = 1 then [0] else if i = 2 then [0] else if i = 3 then [1, 2]
                else []) 4 d)) <
      Waves.posOf (Waves.Ev.start 1)
        (Waves.waveTrace
          (fun i => if i = 1 then [0] else if i = 2 then [0] else if i = 3 then [1, 2] else [])
          4
          (fun d => if d = 1 then [2, 1]
            else Waves.waveNodes
              (fun i => if i = 1 then [0] else if i = 2 then [0] else if i = 3 then [1, 2]
                else []) 4 d)) := by
  have hdag : ∀ i, ∀ j ∈ (fun i : Nat => if i = 1 then [0] else if i = 2 then [0]
      else if i = 3 then [1, 2] else ([] : List Nat)) i, j < i := by
    intro i j hj
    dsimp only at hj
    by_cases h1 : i = 1
    · subst h1
      rw [if_pos rfl] at hj
      rcases List.mem_singleton.mp hj with rfl
      omega
    · rw [if_neg h1] at hj
      by_cases h2 : i = 2
      · subst h2
        rw [if_pos rfl] at hj
        rcases List.mem_singleton.mp hj with rfl
        omega
      · rw [if_neg h2] at hj
        by_cases h3 : i = 3
        · subst h3
          rw [if_pos rfl] at hj
          rcases List.mem_cons.mp hj with rfl | hj2
          · omega
          · rcases List.mem_singleton.mp hj2 with rfl
            omega
        · rw [if_neg h3] at hj
          cases hj
  have hfo : ∀ d, ((fun d : Nat => if d = 1 then [2, 1]
      else Waves.waveNodes
        (fun i : Nat => if i = 1 then [0] else if i = 2 then [0] else if i = 3 then [1, 2]
          else ([] : List Nat)) 4 d) d).Perm
      (Waves.waveNodes
        (fun i : Nat => if i = 1 then [0] else if i = 2 then [0] else if i = 3 then [1, 2]
          else ([] : List Nat)) 4 d) := by
    intro d
    dsimp only
    by_cases hd : d = 1
    · subst hd
      rw [if_pos rfl]
      decide
    · rw [if_neg hd]
  exact ⟨(c6_wave_parallel_schedule _ 4 _ hdag hfo).2.2.2.1 1 2 (by omega) (by omega)
      (by decide),
    (c6_wave_parallel_schedule _ 4 _ hdag hfo).2.2.2.2 0 1 (by omega) (by omega) (by decide)⟩

theorem startReady_errors (depsOf : Nat → List Nat) (s : Dyn.DState) :
    (Dyn.startReady depsOf s).errors = s.errors := rfl

theorem startReady_completed (depsOf : Nat → List Nat) (s : Dyn.DState) :
    (Dyn.startReady depsOf s).completed = s.completed := rfl

theorem step_errors_append (depsOf : Nat → List Nat) (s : Dyn.DState)
    (ev : Nat × Option String) :
    ∃ t, (Dyn.step depsOf s ev).errors = s.errors ++ t := by
  rcases ev with ⟨n, me⟩
  unfold Dyn.step
  by_cases hc : s.inProgress.contains (n, me).1
  · rw [if_pos hc]
    rcases me with _ | e
    · dsimp only
      by_cases he : (s.errors ++ []).isEmpty
      · rw [if_pos he, startReady_errors]
        exact ⟨[], rfl⟩
      · rw [if_neg he]
        exact ⟨[], rfl⟩
    · exact ⟨[e], rfl⟩
  · rw [if_neg hc]
    exact ⟨[], (List.append_nil _).symm⟩

theorem run_errors_append (depsOf : Nat → List Nat) (evs : List (Nat × Option String)) :
    ∀ s : Dyn.DState, ∃ t, (evs.foldl (Dyn.step depsOf) s).errors = s.errors ++ t := by
  induction evs with
  | nil =>
    intro s
    exact ⟨[], (List.append_nil _).symm⟩
  | cons ev rest ih =>
    intro s
    rw [List.foldl_cons]
    rcases ih (Dyn.step depsOf s ev) with ⟨t2, ht2⟩
    rcases step_errors_append depsOf s ev with ⟨t1, ht1⟩
    exact ⟨t1 ++ t2, by rw [ht2, ht1, List.append_assoc]⟩

theorem step_frozen (depsOf : Nat → List Nat) (s : Dyn.DState) (ev : Nat × Option String)
    (herr : s.errors ≠ []) :
    (Dyn.step depsOf s ev).pending = s.pending ∧ (Dyn.step depsOf s ev).errors ≠ [] := by
  rcases ev with ⟨n, me⟩
  unfold Dyn.step
  by_cases hc : s.inProgress.contains (n, me).1
  · rw [if_pos hc]
    rcases me with _ | e
    · dsimp only
      have hne : ¬(s.errors ++ []).isEmpty = true := by
        rw [List.append_nil, List.isEmpty_iff]
        exact herr
      rw [if_neg hne]
      refine ⟨rfl, ?_⟩
      intro h
      exact herr (List.append_eq_nil.mp h).1
    · dsimp only
      refine ⟨rfl, ?_⟩
      intro h
      exact herr (List.append_eq_nil.mp h).1
  · rw [if_neg hc]
    exact ⟨rfl, herr⟩

theorem foldl_frozen (depsOf : Nat → List Nat) (evs : List (Nat × Option String)) :
    ∀ s : Dyn.DState, s.errors ≠ [] →
      (evs.foldl (Dyn.step depsOf) s).pending = s.pending := by
  induction evs with
  | nil =>
    intro s _
    rfl
  | cons ev rest ih =>
    intro s herr
    rw [List.foldl_cons]
    rcases step_frozen depsOf s ev herr with ⟨hp, he⟩
    rw [ih (Dyn.step depsOf s ev) he, hp]

theorem step_completed_mono (depsOf : Nat → List Nat) (s : Dyn.DState)
    (ev : Nat × Option String) (n : Nat) (hn : n ∈ s.completed) :
    n ∈ (Dyn.step depsOf s ev).completed := by
  rcases ev with ⟨m, me⟩
  unfold Dyn.step
  by_cases hc : s.inProgress.contains (m, me).1
  · rw [if_pos hc]
    rcases me with _ | e
    · dsimp only
      by_cases he : (s.errors ++ []).isEmpty
      · rw [if_pos he, startReady_completed]
        exact List.mem_append_left _ hn
      · rw [if_neg he]
        exact List.mem_append_left _ hn
    · exact List.mem_append_left _ hn
  · rw [if_neg hc]
    exact hn

theorem step_inProgress_cases (depsOf : Nat → List Nat) (s : Dyn.DState)
    (ev : Nat × Option String) (n : Nat) (hn : n ∈ s.inProgress) :
    n ∈ (Dyn.step depsOf s ev).inProgress ∨ n ∈ (Dyn.step depsOf s ev).completed := by
  rcases ev with ⟨m, me⟩
  unfold Dyn.step
  by_cases hc : s.inProgress.contains (m, me).1
  · rw [if_pos hc]
    by_cases hne : n = m
    · subst hne
      have hmem : n ∈ s.completed ++ [n] :=
        List.mem_append_right _ (List.mem_singleton.mpr rfl)
      rcases me with _ | e
      · dsimp only
        by_cases he : (s.errors ++ []).isEmpty
        · rw [if_pos he]
          exact Or.inr (by rw [startReady_completed]; exact hmem)
        · rw [if_neg he]
          exact Or.inr hmem
      · exact Or.inr hmem
    · have hermem : n ∈ s.inProgress.erase m :=
        (List.mem_erase_of_ne hne).mpr hn
      rcases me with _ | e
      · dsimp only
        by_cases he : (s.errors ++ []).isEmpty
        · rw [if_pos he]
          exact Or.inl (List.mem_append_left _ hermem)
        · rw [if_neg he]
          exact Or.inl hermem
      · exact Or.inl hermem
  · rw [if_neg hc]
    exact Or.inl hn

theorem foldl_inProgress_completed (depsOf : Nat → List Nat)
    (evs : List (Nat × Option String)) :
    ∀ s : Dyn.DState, ∀ n, n ∈ s.inProgress →
      n ∈ (evs.foldl (Dyn.step depsOf) s).inProgress ∨
        n ∈ (evs.foldl (Dyn.step depsOf) s).completed := by
  induction evs with
  | nil =>
    intro s n hn
    exact Or.inl hn
  | cons ev rest ih =>
    intro s n hn
    rw [List.foldl_cons]
    rcases step_inProgress_cases depsOf s ev n hn with h | h
    · exact ih (Dyn.step depsOf s ev) n h
    · right
      have key : ∀ (evs2 : List (Nat × Option String)) (s2 : Dyn.DState),
          n ∈ s2.completed → n ∈ (evs2.foldl (Dyn.step depsOf) s2).completed := by
        intro evs2
        induction evs2 with
        | nil =>
          intro s2 h2
          exact h2
        | cons e2 r2 ih2 =>
          intro s2 h2
          rw [List.foldl_cons]
          exact ih2 _ (step_completed_mono depsOf s2 e2 n h2)
      exact key rest _ h

/-- Claim C7: in dynamic-ready execution, once an error has been captured no
pending node is ever started afterwards (the pending set is frozen across
every later completion); when the await loop's exit condition holds, every
node that was in progress has completed; and the first captured error is the
one executeDynamic re-raises. -/
theorem c7_dynamic_error_handling (depsOf : Nat → List Nat) (order : List Nat)
    (pre post : List (Nat × Option String)) :
    ((Dyn.run depsOf order pre).errors ≠ [] →
      (Dyn.run depsOf order (pre ++ post)).pending = (Dyn.run depsOf order pre).pending) ∧
    (∀ n, n ∈ (Dyn.run depsOf order pre).inProgress →
      Dyn.canReturn (Dyn.run depsOf order (pre ++ post)) = true →
      n ∈ (Dyn.run depsOf order (pre ++ post)).completed) ∧
    (∀ e es, (Dyn.run depsOf order pre).errors = e :: es →
      Dyn.dynResult (Dyn.run depsOf order (pre ++ post)) = .error e) := by
  have hsplit : Dyn.run depsOf order (pre ++ post) =
      post.foldl (Dyn.step depsOf) (Dyn.run depsOf order pre) := by
    unfold Dyn.run
    rw [List.foldl_append]
  refine ⟨?_, ?_, ?_⟩
  · intro herr
    rw [hsplit]
    exact foldl_frozen depsOf post (Dyn.run depsOf order pre) herr
  · intro n hn hret
    rw [hsplit] at hret ⊢
    rcases foldl_inProgress_completed depsOf post (Dyn.run depsOf order pre) n hn
      with h | h
    · exfalso
      unfold Dyn.canReturn at hret
      rw [Bool.and_eq_true] at hret
      rcases hret with ⟨hemp, _⟩
      rw [List.isEmpty_iff] at hemp
      rw [hemp] at h
      cases h
    · exact h
  · intro e es herr
    rw [hsplit]
    rcases run_errors_append depsOf post (Dyn.run depsOf order pre) with ⟨t, ht⟩
    unfold Dyn.dynResult
    rw [ht, herr, List.cons_append]

/-- Claim C7 witness: node 0 fails, node 1 (in progress) completes afterwards;
node 2 (pending, dependent on 1) is never started, the final state can
return with node 1 completed, and the first error is re-raised. -/
theorem c7_witness :
    ((Dyn.run (fun i => if i = 2 then [1] else []) [0, 1, 2]
        [(0, some "boom")]).errors ≠ [] →
      (Dyn.run (fun i => if i = 2 then [1] else []) [0, 1, 2]
          ([(0, some "boom")] ++ [(1, none)])).pending =
        (Dyn.run (fun i => if i = 2 then [1] else []) [0, 1, 2]
          [(0, some "boom")]).pending) ∧
    (∀ n, n ∈ (Dyn.run (fun i => if i = 2 then [1] else []) [0, 1, 2]
        [(0, some "boom")]).inProgress →
      Dyn.canReturn (Dyn.run (fun i => if i = 2 then [1] else []) [0, 1, 2]
          ([(0, some "boom")] ++ [(1, none)])) = true →
      n ∈ (Dyn.run (fun i => if i = 2 then [1] else []) [0, 1, 2]
          ([(0, some "boom")] ++ [(1, none)])).completed) ∧
    (∀ e es, (Dyn.run (fun i => if i = 2 then [1] else []) [0, 1, 2]
        [(0, some "boom")]).errors = e :: es →
      Dyn.dynResult (Dyn.run (fun i => if i = 2 then [1] else []) [0, 1, 2]
          ([(0, some "boom")] ++ [(1, none)])) = .error e) :=
  c7_dynamic_error_handling (fun i => if i = 2 then [1] else []) [0, 1, 2]
    [(0, some "boom")] [(1, none)]

end Efes
